import Mathlib

/-!
Verification development for the Sanity note-synchronization server
(`src/server`). The Rust handlers are embedded shallowly: the database is a
record of row lists, each SQL statement becomes a list operation with the
statement's semantics, and every handler becomes a total Lean function over
that state. Timestamps are `Nat` values passed explicitly in place of
`now()`. External crates (uuid, base64, yrs, jsonwebtoken) are modelled by
small executable codecs whose doc comments state exactly which properties of
the real library they keep.
-/

namespace Sanity

/-- Byte sequences (Rust `Vec<u8>`), modelled as lists of naturals. -/
abbrev Bytes := List Nat

/-- Wire-level strings (JSON map keys and base64 payloads), modelled as
lists of naturals. -/
abbrev WireStr := List Nat

/-- Note / folder identifiers (`uuid::Uuid`), modelled as naturals. -/
abbrev Uuid := Nat

/-- Wall-clock timestamps (`DateTime<Utc>`), modelled as naturals ordered
by `<`. -/
abbrev Time := Nat

/-! ### Model of the `uuid` crate's textual codec

`Uuid::to_string` renders a canonical form; `str::parse::<Uuid>` accepts
several textual forms of the same identifier (case differences in the real
crate). The model keeps: parse of the canonical form succeeds and returns
the identifier; distinct identifiers have distinct canonical forms; some
strings do not parse; a single identifier admits more than one parsing
form (here: leading zeros). -/
/-- Little-endian base-10 digits with explicit fuel (kernel-reducible
counterpart of `Nat.digits 10`). -/
def digitsAux : Nat → Nat → List Nat
  | 0, _ => []
  | _ + 1, 0 => []
  | fuel + 1, n + 1 => (n + 1) % 10 :: digitsAux fuel ((n + 1) / 10)

/-- Little-endian base-10 digits of a natural. -/
def natDigits (n : Nat) : List Nat := digitsAux n n

/-- Model of `uuid::Uuid::to_string`: big-endian decimal digit string. -/
def uuidToStr (u : Uuid) : WireStr :=
  if u = 0 then [0] else (natDigits u).reverse

/-- Value of a little-endian digit list (kernel-reducible counterpart of
`Nat.ofDigits 10`). -/
def ofDigitsLE : List Nat → Nat
  | [] => 0
  | d :: ds => d + 10 * ofDigitsLE ds

/-- Model of `str::parse::<Uuid>`: any nonempty all-digit string parses
(leading zeros give non-canonical forms of the same identifier). -/
def parseUuid (s : WireStr) : Option Uuid :=
  if s ≠ [] ∧ ∀ d ∈ s, d < 10 then some (ofDigitsLE s.reverse) else none

/-! ### Model of the `base64` crate (`STANDARD` engine)

The model keeps: `decode (encode b) = some b`, `encode` is injective, and
undecodable strings exist (any string not produced by `encode`). -/
/-- Model of `base64::engine::general_purpose::STANDARD.encode`. -/
def b64encode (b : Bytes) : WireStr := 64 :: b

/-- Model of `base64::engine::general_purpose::STANDARD.decode`. -/
def b64decode (s : WireStr) : Option Bytes :=
  match s with
  | 64 :: rest => some rest
  | _ => none

/-! ### Model of the `yrs` CRDT engine

A document is the set of operations it has observed (`Finset Nat`);
applying an update is set union, which is commutative, associative and
idempotent, exactly the contract the server relies on. Encodings are
canonical: a snapshot or state vector is the sorted operation list behind a
tag byte, so `decode_v1 (encode_state_as_update_v1 d) = some d` and decoding
rejects ill-formed byte strings. `encode_diff_v1 d sv` is the set of
operations of `d` missing from the peer state `sv`. -/
/-- Model of a `yrs::Doc`: the set of operations observed, kept as a
canonical (strictly increasing) list. Every document the pipeline builds is
canonical, so equal operation sets have equal encodings. -/
abbrev YDoc := List Nat

/-- A canonical operation list: strictly increasing. -/
def Canon (l : List Nat) : Prop := List.Pairwise (· < ·) l

/-- Ordered deduplicating insertion (the model's set-insert). -/
def insertS (x : Nat) : List Nat → List Nat
  | [] => [x]
  | y :: ys => if x < y then x :: y :: ys else if x = y then y :: ys else y :: insertS x ys

/-- Canonicalize an operation list. -/
def canonList (l : List Nat) : List Nat := l.foldr insertS []

/-- Model of `yrs::TransactionMut::apply_update`: set union of the observed
operations, producing the canonical form. -/
def apply_update (d u : YDoc) : YDoc := d.foldr insertS (canonList u)

/-- Boolean test for a strictly increasing list (the executable form of
`Canon`). -/
def strictAsc : List Nat → Bool
  | [] => true
  | [_] => true
  | x :: y :: rest => decide (x < y) && strictAsc (y :: rest)

/-- Model of `yrs::Update::decode_v1`: accepts exactly the canonical update
encodings (tag byte 0 followed by a strictly increasing operation list). -/
def decode_v1 (b : Bytes) : Option YDoc :=
  match b with
  | tag :: ops => if tag == 0 && strictAsc ops then some ops else none
  | [] => none

/-- Model of `txn.encode_state_as_update_v1(&StateVector::default())`:
the full snapshot of the document. -/
def encode_state_as_update_v1 (d : YDoc) : Bytes := 0 :: d

/-- Model of `txn.state_vector().encode_v1()`. -/
def encode_state_vector_v1 (d : YDoc) : Bytes := 1 :: d

/-- Model of `yrs::StateVector::decode_v1` (tag byte 1). -/
def sv_decode_v1 (b : Bytes) : Option (List Nat) :=
  match b with
  | tag :: ops => if tag == 1 && strictAsc ops then some ops else none
  | [] => none

/-- Model of `txn.encode_diff_v1(&remote_sv)`: the update carrying the
operations the peer is missing. -/
def encode_diff_v1 (d : YDoc) (sv : List Nat) : Bytes :=
  0 :: d.filter (fun x => !(sv.contains x))

/-! ### Persisted rows and the database state

One structure per table of the schema
(`notes`, `folders`, `crdt_states`); a table is a list of rows, and each
SQL statement of the handlers becomes one operation below. -/
/-- Row of `notes` (struct `Note` in `db/models.rs`). -/
structure NoteRow where
  id : Uuid
  title : String
  content : String
  folder_id : Option Uuid
  updated_at : Time
  is_deleted : Bool
  is_canvas : Bool
deriving DecidableEq

/-- Row of `folders` (struct `Folder` in `db/models.rs`). -/
structure FolderRow where
  id : Uuid
  name : String
  parent_id : Option Uuid
  created_at : Time
  updated_at : Time
  is_deleted : Bool
deriving DecidableEq

/-- Row of `crdt_states` (struct `CrdtState` in `api/sync_crdt.rs`). -/
structure CrdtRow where
  note_id : Uuid
  ydoc_state : Bytes
  state_vector : Bytes
  updated_at : Time
deriving DecidableEq

/-- The durable database state. -/
structure Db where
  notes : List NoteRow
  folders : List FolderRow
  crdt_states : List CrdtRow
deriving DecidableEq

/-- Embeds `NoteMetadata` of `api/sync_crdt.rs` (wire form of a note row). -/
structure NoteMetadata where
  id : Uuid
  title : String
  content : String
  folder_id : Option Uuid
  is_deleted : Bool
  is_canvas : Bool
  updated_at : Time
deriving DecidableEq

/-- The `notes` row written for a `NoteMetadata` payload. -/
def metaRow (m : NoteMetadata) : NoteRow :=
  ⟨m.id, m.title, m.content, m.folder_id, m.updated_at, m.is_deleted, m.is_canvas⟩

/-- The `NoteMetadata` read back from a `notes` row
(`SELECT id, title, content, folder_id, is_deleted, is_canvas, updated_at`). -/
def toMeta (r : NoteRow) : NoteMetadata :=
  ⟨r.id, r.title, r.content, r.folder_id, r.is_deleted, r.is_canvas, r.updated_at⟩

/-! ### SQL statements as state operations -/
/-- Embeds `SELECT ... FROM notes WHERE id = $1` (`fetch_optional`). -/
def selectNote (db : Db) (id : Uuid) : Option NoteRow :=
  db.notes.find? (fun r => r.id == id)

/-- Embeds `SELECT ... FROM folders WHERE id = $1` (`fetch_optional`). -/
def selectFolder (db : Db) (id : Uuid) : Option FolderRow :=
  db.folders.find? (fun r => r.id == id)

/-- Embeds `SELECT ... FROM crdt_states WHERE note_id = $1` (`fetch_optional`). -/
def selectCrdt (db : Db) (id : Uuid) : Option CrdtRow :=
  db.crdt_states.find? (fun r => r.note_id == id)

/-- Embeds `INSERT INTO notes ... ON CONFLICT (id) DO UPDATE SET ...
WHERE notes.updated_at < EXCLUDED.updated_at`: the conditional
last-writer-wins upsert of `sync_crdt` (and of the websocket sync-request
arm of `handle_socket`). A first-time insert is unconditional; an update
applies only when the stored timestamp is strictly older. -/
def upsert_metadata_if_newer (db : Db) (m : NoteMetadata) : Db :=
  if db.notes.any (fun r => r.id == m.id) then
    { db with notes := db.notes.map (fun r =>
        if r.id = m.id ∧ r.updated_at < m.updated_at then metaRow m else r) }
  else
    { db with notes := db.notes ++ [metaRow m] }

/-- Embeds `INSERT INTO notes ... ON CONFLICT (id) DO UPDATE SET ...` with no
`WHERE` clause: the unconditional upsert of the websocket `NoteMetadata`
arm of `handle_socket`. -/
def upsertNoteUnconditional (db : Db) (m : NoteMetadata) : Db :=
  if db.notes.any (fun r => r.id == m.id) then
    { db with notes := db.notes.map (fun r => if r.id = m.id then metaRow m else r) }
  else
    { db with notes := db.notes ++ [metaRow m] }

/-- Embeds `INSERT INTO notes ... VALUES (..., now(), ...) ON CONFLICT (id) DO
UPDATE SET ..., updated_at = now(), ... RETURNING *`: the upsert of
`save_note`, which overwrites every field and stamps the server clock. -/
def saveNoteUpsert (db : Db) (row : NoteRow) : Db :=
  if db.notes.any (fun r => r.id == row.id) then
    { db with notes := db.notes.map (fun r => if r.id = row.id then row else r) }
  else
    { db with notes := db.notes ++ [row] }

/-- Embeds `INSERT INTO crdt_states ... ON CONFLICT (note_id) DO UPDATE SET ...`:
the unconditional snapshot upsert of the merge paths. -/
def upsertCrdt (db : Db) (row : CrdtRow) : Db :=
  if db.crdt_states.any (fun r => r.note_id == row.note_id) then
    { db with crdt_states := db.crdt_states.map (fun r =>
        if r.note_id = row.note_id then row else r) }
  else
    { db with crdt_states := db.crdt_states ++ [row] }

/-- Embeds `INSERT INTO crdt_states ... ON CONFLICT (note_id) DO NOTHING`:
the seeding insert of `save_note`. -/
def insertCrdtIfAbsent (db : Db) (row : CrdtRow) : Db :=
  if db.crdt_states.any (fun r => r.note_id == row.note_id) then db
  else { db with crdt_states := db.crdt_states ++ [row] }

/-- Decidable equality for handler results. -/
instance exceptDecEq {ε α : Type} [DecidableEq ε] [DecidableEq α] :
    DecidableEq (Except ε α) := fun x y =>
  match x, y with
  | .error a, .error b =>
    if h : a = b then isTrue (by rw [h])
    else isFalse (by intro c; cases c; exact h rfl)
  | .ok a, .ok b =>
    if h : a = b then isTrue (by rw [h])
    else isFalse (by intro c; cases c; exact h rfl)
  | .error _, .ok _ => isFalse (fun c => Except.noConfusion c)
  | .ok _, .error _ => isFalse (fun c => Except.noConfusion c)

/-! ### HTTP status codes -/
/-- HTTP status codes, as plain naturals. -/
abbrev Status := Nat

def badRequest : Status := 400

def notFound : Status := 404

def unauthorized : Status := 401

/-! ### `api/auth.rs` -/
/-- Embeds `LoginRequest`. -/
structure LoginRequest where
  username : String
  password : String
deriving DecidableEq

/-- Model of `jwt::encode_token` (HS256 signing via the `jsonwebtoken`
crate, modelled as an opaque total function of secret and subject). -/
def encode_token (secret subject : String) : String :=
  secret ++ ":" ++ subject

/-- Embeds `login` of `api/auth.rs`: rejects an empty username with 401, otherwise
issues a token for the username. The password is never examined. -/
def login (secret : String) (payload : LoginRequest) : Except Status String :=
  if payload.username.isEmpty then .error unauthorized
  else .ok (encode_token secret payload.username)

/-! ### `api/notes.rs`: reads -/
/-- Embeds `get_note` of `api/notes.rs`: 400 on an unparseable id, 404 when the
row is absent, otherwise the row — with no `is_deleted` check. -/
def get_note (db : Db) (idStr : WireStr) : Except Status NoteRow :=
  match parseUuid idStr with
  | none => .error badRequest
  | some id =>
    match selectNote db id with
    | some note => .ok note
    | none => .error notFound

/-- Embeds `get_folder` of `api/folders.rs`: 400 on an unparseable id, the row
when present and not soft-deleted, 404 otherwise. -/
def get_folder (db : Db) (idStr : WireStr) : Except Status FolderRow :=
  match parseUuid idStr with
  | none => .error badRequest
  | some id =>
    match selectFolder db id with
    | some folder => if folder.is_deleted then .error notFound else .ok folder
    | none => .error notFound

/-! ### `api/folders.rs`: recursive soft delete -/
/-- One round of the recursive CTE of `delete_folder`: add every folder
whose `parent_id` is already in the set. -/
def childStep (folders : List FolderRow) (s : Finset Uuid) : Finset Uuid :=
  s ∪ ((folders.filter (fun f =>
    match f.parent_id with
    | some p => decide (p ∈ s)
    | none => false)).map (fun f => f.id)).toFinset

/-- The id set computed by the recursive CTE `descendants` of
`delete_folder`: seeded with the target row when it exists, closed under
`childStep` (iterating `folders.length` times reaches the fixpoint). -/
def descendants (folders : List FolderRow) (root : Uuid) : Finset Uuid :=
  (childStep folders)^[folders.length]
    (((folders.filter (fun f => f.id == root)).map (fun f => f.id)).toFinset)

/-- Embeds `delete_folder` of `api/folders.rs`: 400 on an unparseable id, then one
`UPDATE folders SET is_deleted = true, updated_at = now()` over the CTE's
descendant set, and 404 when no row was affected. The `notes` table is not
touched. -/
def delete_folder (db : Db) (now : Time) (idStr : WireStr) : Except Status Db :=
  match parseUuid idStr with
  | none => .error badRequest
  | some fid =>
    let ds := descendants db.folders fid
    let affected := (db.folders.filter (fun f => decide (f.id ∈ ds))).length
    let db' := { db with folders := db.folders.map (fun f =>
      if f.id ∈ ds then { f with is_deleted := true, updated_at := now } else f) }
    if affected = 0 then .error notFound else .ok db'

/-! ### The merge step shared by every CRDT push path

`sync_crdt` (HTTP), the websocket `Update` arm and the websocket
`SyncRequest` arm of `handle_socket` all run the same sequence: read the
stored snapshot for the note, build a fresh `Doc`, apply the stored
snapshot when it decodes (a failure is treated as an empty prior state),
apply the incoming update when it decodes (a failure is silently ignored),
then upsert the re-encoded snapshot and state vector with `now()`. -/
/-- The post-merge document of the merge step. -/
def mergeDoc (existing : Option Bytes) (upd : Bytes) : YDoc :=
  let d0 : YDoc := []
  let d1 :=
    match existing with
    | some eb =>
      match decode_v1 eb with
      | some u => apply_update d0 u
      | none => d0
    | none => d0
  match decode_v1 upd with
  | some u => apply_update d1 u
  | none => d1

/-- The merge step: read, merge, upsert (lines 169–217 of
`api/sync_crdt.rs`, repeated in both websocket arms). -/
def mergeStep (db : Db) (now : Time) (id : Uuid) (upd : Bytes) : Db :=
  let existing := (selectCrdt db id).map (fun r => r.ydoc_state)
  let d := mergeDoc existing upd
  upsertCrdt db ⟨id, encode_state_as_update_v1 d, encode_state_vector_v1 d, now⟩

/-! ### `handle_socket` arms (database effects)

The hub broadcast and the socket I/O carry no database effect and are
elided; each arm below is the database effect of one parsed frame. -/
/-- Websocket `NoteMetadata` arm: unconditional upsert of the parsed
metadata (no timestamp guard in its SQL). -/
def handle_note_metadata (db : Db) (m : NoteMetadata) : Db :=
  upsertNoteUnconditional db m

/-- Websocket `Update` arm: merge when both the id and the base64 payload
parse, otherwise do nothing. -/
def handle_ws_update (db : Db) (now : Time) (note_id payload : WireStr) : Db :=
  match parseUuid note_id, b64decode payload with
  | some id, some upd => mergeStep db now id upd
  | _, _ => db

/-- The push loop of the websocket `SyncRequest` arm: entries whose id or
payload fail to parse are skipped silently. -/
def handle_ws_sync_updates (now : Time) : List (WireStr × WireStr) → Db → Db
  | [], db => db
  | kv :: rest, db =>
    handle_ws_sync_updates now rest
      (match parseUuid kv.1, b64decode kv.2 with
       | some id, some upd => mergeStep db now id upd
       | _, _ => db)

/-! ### `api/notes.rs`: `save_note` -/
/-- Tag remover of `html_to_text`: model of the `regex` crate's
`replace_all` with pattern dropping angle-bracket tag spans (a scanner with
an in-tag flag in place of the regex engine). -/
def stripTags (inTag : Bool) : List Char → List Char
  | [] => []
  | c :: rest =>
    if inTag then
      if c = '>' then stripTags false rest else stripTags true rest
    else
      if c = '<' then stripTags true rest else c :: stripTags false rest

/-- Embeds `html_to_text` of `api/notes.rs`: block tags become newlines, remaining
tags are stripped, common entities are decoded, the result is trimmed. -/
def html_to_text (html : String) : String :=
  let r := html
  let r := r.replace "</p>" "\n"
  let r := r.replace "</div>" "\n"
  let r := r.replace "</h1>" "\n"
  let r := r.replace "</h2>" "\n"
  let r := r.replace "</h3>" "\n"
  let r := r.replace "</h4>" "\n"
  let r := r.replace "</h5>" "\n"
  let r := r.replace "</h6>" "\n"
  let r := r.replace "<br>" "\n"
  let r := r.replace "<br/>" "\n"
  let r := r.replace "<br />" "\n"
  let r := String.mk (stripTags false r.data)
  let r := r.replace "&nbsp;" " "
  let r := r.replace "&amp;" "&"
  let r := r.replace "&lt;" "<"
  let r := r.replace "&gt;" ">"
  let r := r.replace "&quot;" "\""
  r.trim

/-- Model of the seeding document of `save_note`: a fresh `Doc` holding one
paragraph `XmlElement` with the plain text when it is nonempty (operation
identities abstracted; an empty text leaves the document empty, as in the
source where nothing is inserted). -/
def seedDoc (plain : String) : YDoc :=
  if plain.isEmpty then [] else [0]

/-- Embeds `NoteInput` of `api/notes.rs`. The client-supplied `updated_at` is
carried on the wire but never read by the handler. -/
structure NoteInput where
  id : Option Uuid
  title : String
  content : String
  folder_id : Option Uuid
  is_deleted : Option Bool
  is_canvas : Option Bool
  updated_at : Option Time
deriving DecidableEq

/-- Embeds `save_note` of `api/notes.rs`: unconditional upsert stamped with the
server clock, then one-way CRDT seeding when the note carries non-empty
content, is not a canvas and has no CRDT state yet. The hub broadcast has
no database effect and is elided. `freshId` stands for `Uuid::new_v4`. -/
def save_note (db : Db) (now : Time) (freshId : Uuid) (note : NoteInput) :
    Db × NoteRow :=
  let id := note.id.getD freshId
  let is_canvas := note.is_canvas.getD false
  let row : NoteRow :=
    ⟨id, note.title, note.content, note.folder_id, now,
      note.is_deleted.getD false, is_canvas⟩
  let db1 := saveNoteUpsert db row
  let db2 :=
    if ¬ note.content.isEmpty ∧ is_canvas = false then
      match selectCrdt db1 id with
      | some _ => db1
      | none =>
        let d := seedDoc (html_to_text note.content)
        insertCrdtIfAbsent db1
          ⟨id, encode_state_as_update_v1 d, encode_state_vector_v1 d, now⟩
    else db1
  (db2, row)

/-! ### `api/sync_crdt.rs`: the HTTP batch sync handler

The request and response `HashMap<String, String>` fields are association
lists looked up by first key; `minsert` shadows as `HashMap::insert`
overwrites. -/
/-- Embeds `CrdtSyncRequest`. -/
structure CrdtSyncRequest where
  state_vectors : List (WireStr × WireStr)
  updates : List (WireStr × WireStr)
  metadata : List NoteMetadata
deriving DecidableEq

/-- Embeds `CrdtSyncResponse`. -/
structure CrdtSyncResponse where
  updates : List (WireStr × WireStr)
  metadata : List NoteMetadata
  server_time : Time
deriving DecidableEq

/-- Embeds `HashMap` lookup. -/
def mlookup (m : List (WireStr × WireStr)) (k : WireStr) : Option WireStr :=
  (m.find? (fun p => p.1 == k)).map (fun p => p.2)

/-- Embeds `HashMap::contains_key`. -/
def mcontains (m : List (WireStr × WireStr)) (k : WireStr) : Bool :=
  (m.find? (fun p => p.1 == k)).isSome

/-- Embeds `HashMap::insert` (shadowing cons; `mlookup` sees the newest binding). -/
def minsert (m : List (WireStr × WireStr)) (k v : WireStr) :
    List (WireStr × WireStr) :=
  (k, v) :: m

/-- One entry of the push loop of `sync_crdt`: an unparseable id or
non-base64 payload aborts the whole request with 400, otherwise the merge
step runs. -/
def pushEntry (now : Time) (db : Db) (kv : WireStr × WireStr) :
    Except Status Db :=
  match parseUuid kv.1 with
  | none => .error badRequest
  | some id =>
    match b64decode kv.2 with
    | none => .error badRequest
    | some upd => .ok (mergeStep db now id upd)

/-- The push loop over `payload.updates`. -/
def pushLoop (now : Time) : List (WireStr × WireStr) → Db → Except Status Db
  | [], db => .ok db
  | kv :: rest, db =>
    match pushEntry now db kv with
    | .error e => .error e
    | .ok db' => pushLoop now rest db'

/-- The metadata loop over `payload.metadata` (conditional LWW upserts). -/
def metaLoop : List NoteMetadata → Db → Db
  | [], db => db
  | m :: rest, db => metaLoop rest (upsert_metadata_if_newer db m)

/-- The value computed for one entry of the state-vector diff loop: `none`
on any failure (bad id, bad base64, no stored row, undecodable stored state
or state vector), otherwise the base64 diff of the server document against
the client's state vector. -/
def diffValue (db : Db) (kv : WireStr × WireStr) : Option WireStr := do
  let id ← parseUuid kv.1
  let svb ← b64decode kv.2
  let row ← selectCrdt db id
  let u ← decode_v1 row.ydoc_state
  let sv ← sv_decode_v1 svb
  some (b64encode (encode_diff_v1 (apply_update [] u) sv))

/-- One entry of the state-vector diff loop: a failed entry is skipped
silently; success inserts the diff under the client's original key. -/
def diffEntry (db : Db) (acc : List (WireStr × WireStr))
    (kv : WireStr × WireStr) : List (WireStr × WireStr) :=
  match diffValue db kv with
  | none => acc
  | some v => minsert acc kv.1 v

/-- The diff loop over `payload.state_vectors`. -/
def diffLoop (db : Db) :
    List (WireStr × WireStr) → List (WireStr × WireStr) →
    List (WireStr × WireStr)
  | [], acc => acc
  | kv :: rest, acc => diffLoop db rest (diffEntry db acc kv)

/-- The rows fetched for clients lacking a note: everything when the client
advertised no parseable ids, otherwise `WHERE note_id != ALL($1)`. -/
def newNotesList (db : Db) (svs : List (WireStr × WireStr)) :
    List (Uuid × Bytes) :=
  let client_note_ids := svs.filterMap (fun kv => parseUuid kv.1)
  if client_note_ids.isEmpty then
    db.crdt_states.map (fun r => (r.note_id, r.ydoc_state))
  else
    (db.crdt_states.filter
      (fun r => !(client_note_ids.contains r.note_id))).map
      (fun r => (r.note_id, r.ydoc_state))

/-- The loop adding full snapshots for unknown notes (insert under the
canonical id string unless the key is already bound). -/
def newNotesLoop :
    List (Uuid × Bytes) → List (WireStr × WireStr) → List (WireStr × WireStr)
  | [], acc => acc
  | (id, st) :: rest, acc =>
    newNotesLoop rest
      (if mcontains acc (uuidToStr id) then acc
       else minsert acc (uuidToStr id) (b64encode st))

/-- The client-known `note_id → mtime` map collected from the request's
metadata (`collect` keeps the last pair for a duplicated key). -/
def clientMtime (metas : List NoteMetadata) (id : Uuid) : Option Time :=
  (metas.reverse.find? (fun m => m.id == id)).map (fun m => m.updated_at)

/-- The final response loop over the server's notes: include a metadata row
the client lacks or holds an older version of, attaching the stored
snapshot when its key is not already present in the response updates. -/
def includeLoop (db : Db) (clientMetas : List NoteMetadata) :
    List NoteMetadata → List (WireStr × WireStr) × List NoteMetadata →
    List (WireStr × WireStr) × List NoteMetadata
  | [], acc => acc
  | note :: rest, (accU, accM) =>
    let shouldInclude :=
      match clientMtime clientMetas note.id with
      | none => true
      | some t => decide (t < note.updated_at)
    if shouldInclude then
      let accU' :=
        if mcontains accU (uuidToStr note.id) then accU
        else
          match selectCrdt db note.id with
          | some row => minsert accU (uuidToStr note.id) (b64encode row.ydoc_state)
          | none => accU
      includeLoop db clientMetas rest (accU', accM ++ [note])
    else
      includeLoop db clientMetas rest (accU, accM)

/-- Embeds `sync_crdt` of `api/sync_crdt.rs` (the `POST /sync/crdt` handler), as
one transaction over the database state: push updates (any malformed entry
aborts with 400), apply metadata LWW upserts, compute per-note diffs,
gather snapshots of unknown notes, then include newer metadata with
attached snapshots. Both arms of the source's metadata fetch run the
identical `SELECT` over `notes`, kept here as the same `if`. -/
def sync_crdt (db : Db) (now : Time) (req : CrdtSyncRequest) :
    Except Status (Db × CrdtSyncResponse) :=
  match pushLoop now req.updates db with
  | .error e => .error e
  | .ok db1 =>
    let db2 := metaLoop req.metadata db1
    let m1 := diffLoop db2 req.state_vectors []
    let m2 := newNotesLoop (newNotesList db2 req.state_vectors) m1
    let client_metadata_ids := req.metadata.map (fun m => m.id)
    let all_server_notes :=
      if client_metadata_ids.isEmpty then db2.notes.map toMeta
      else db2.notes.map toMeta
    let out := includeLoop db2 req.metadata all_server_notes (m2, [])
    .ok (db2, ⟨out.1, out.2, now⟩)

/-- The document a merge step builds for note `id` on database `db`. -/
def mDoc (db : Db) (id : Uuid) (upd : Bytes) : YDoc :=
  mergeDoc ((selectCrdt db id).map (fun r => r.ydoc_state)) upd

/-! ### The folder subtree: the CTE closure computes exactly transitive
reachability through `parent_id` -/
/-- Membership of a folder id in the transitive subtree rooted at `root`:
the root itself, or a folder whose parent lies in the subtree. -/
inductive InSubtree (folders : List FolderRow) (root : Uuid) : Uuid → Prop
  | root : InSubtree folders root root
  | child (f : FolderRow) (p : Uuid) (hf : f ∈ folders) (hp : f.parent_id = some p)
      (hr : InSubtree folders root p) : InSubtree folders root f.id

/-- The seed of the CTE. -/
def cteSeed (folders : List FolderRow) (root : Uuid) : Finset Uuid :=
  ((folders.filter (fun f => f.id == root)).map (fun f => f.id)).toFinset

/-! ### Snapshot / state-vector pair consistency (the C5 invariant) -/
/-- A `crdt_states` row is consistent when its snapshot and state vector
are both encoded from one and the same document. -/
def RowConsistent (r : CrdtRow) : Prop :=
  ∃ d, Canon d ∧ r.ydoc_state = encode_state_as_update_v1 d ∧
    r.state_vector = encode_state_vector_v1 d

/-- Every stored `crdt_states` row is consistent. -/
def DbConsistent (db : Db) : Prop := ∀ r ∈ db.crdt_states, RowConsistent r

/-! ## Concrete fixtures for witnesses and counterexamples -/
def dbEmpty : Db := ⟨[], [], []⟩

def c6row : NoteRow := ⟨1, "gone", "", none, 5, true, false⟩

def c6db : Db := ⟨[c6row], [⟨2, "F", none, 0, 0, true⟩], []⟩

def c2a : NoteMetadata := ⟨1, "a-payload", "", none, false, false, 1⟩

def c2b : NoteMetadata := ⟨1, "b-payload", "", none, false, false, 2⟩

def c7inA : NoteInput := ⟨some 1, "A", "", none, none, none, some 11⟩

def c7inB : NoteInput := ⟨some 1, "B", "", none, none, none, some 10⟩

def c3row : CrdtRow := ⟨1, encode_state_as_update_v1 [5], encode_state_vector_v1 [5], 3⟩

def c3db : Db := ⟨[], [], [c3row]⟩

def c3req : CrdtSyncRequest := ⟨[], [(uuidToStr 1, b64encode [99])], []⟩

def c1noteH : NoteRow := ⟨7, "N", "", some 2, 0, false, false⟩

def c1db : Db :=
  ⟨[c1noteH], [⟨1, "F", none, 0, 0, false⟩, ⟨2, "G", some 1, 0, 0, false⟩], []⟩

def c1dbAfter : Db :=
  ⟨[c1noteH], [⟨1, "F", none, 0, 5, true⟩, ⟨2, "G", some 1, 0, 5, true⟩], []⟩

def c8row : CrdtRow := ⟨1, encode_state_as_update_v1 [5], encode_state_vector_v1 [5], 3⟩

def c8db : Db := ⟨[], [], [c8row]⟩

def c8resp : CrdtSyncResponse :=
  ⟨[(uuidToStr 1, b64encode (encode_state_as_update_v1 [5]))], [], 9⟩

def c10note : NoteRow := ⟨1, "t", "", none, 5, false, false⟩

def c10row : CrdtRow :=
  ⟨1, encode_state_as_update_v1 [5], encode_state_vector_v1 [5], 3⟩

def c10db : Db := ⟨[c10note], [], [c10row]⟩

def c10req : CrdtSyncRequest := ⟨[(uuidToStr 1, [9])], [], []⟩

/-! ## Theorems -/

theorem digitsAux_eq_digits :
    ∀ fuel n, n ≤ fuel → digitsAux fuel n = Nat.digits 10 n := by
  intro fuel
  induction fuel with
  | zero => intro n hn; interval_cases n; simp [digitsAux]
  | succ fuel ih =>
    intro n hn
    match n with
    | 0 => simp [digitsAux]
    | m + 1 =>
      rw [show digitsAux (fuel + 1) (m + 1) =
            (m + 1) % 10 :: digitsAux fuel ((m + 1) / 10) from rfl,
        Nat.digits_def' (by norm_num : (1:ℕ) < 10) (Nat.succ_pos m),
        ih ((m + 1) / 10) ?_]
      have h1 : (m + 1) / 10 < m + 1 := Nat.div_lt_self (Nat.succ_pos m) (by norm_num)
      omega

theorem natDigits_eq_digits (n : Nat) : natDigits n = Nat.digits 10 n :=
  digitsAux_eq_digits n n le_rfl

theorem ofDigitsLE_eq (l : List Nat) : ofDigitsLE l = Nat.ofDigits 10 l := by
  induction l with
  | nil => simp [ofDigitsLE]
  | cons d ds ih => simp [ofDigitsLE, Nat.ofDigits_cons, ih]

theorem parseUuid_uuidToStr (u : Uuid) : parseUuid (uuidToStr u) = some u := by
  unfold parseUuid uuidToStr
  by_cases h0 : u = 0
  · subst h0; decide
  · rw [if_neg h0, natDigits_eq_digits, if_pos]
    · rw [List.reverse_reverse, ofDigitsLE_eq, Nat.ofDigits_digits]
    · constructor
      · simp [Nat.digits_ne_nil_iff_ne_zero, h0]
      · intro d hd
        exact Nat.digits_lt_base (by norm_num) (List.mem_reverse.mp hd)

theorem uuidToStr_injective : Function.Injective uuidToStr := by
  intro a b h
  have := parseUuid_uuidToStr a
  rw [h, parseUuid_uuidToStr b] at this
  exact (Option.some_injective _ this).symm

theorem b64decode_b64encode (b : Bytes) : b64decode (b64encode b) = some b := rfl

theorem strictAsc_iff : ∀ {l : List Nat}, strictAsc l = true ↔ Canon l := by
  intro l
  induction l with
  | nil => simp [strictAsc, Canon]
  | cons x t ih =>
    cases t with
    | nil => simp [strictAsc, Canon]
    | cons y r =>
      rw [show strictAsc (x :: y :: r) = (decide (x < y) && strictAsc (y :: r)) from rfl]
      rw [Bool.and_eq_true, decide_eq_true_iff, ih]
      constructor
      · rintro ⟨hxy, hp⟩
        refine List.Pairwise.cons ?_ hp
        intro z hz
        rcases List.mem_cons.mp hz with rfl | hzr
        · exact hxy
        · exact hxy.trans ((List.pairwise_cons.mp hp).1 z hzr)
      · intro h
        rw [Canon, List.pairwise_cons] at h
        exact ⟨h.1 y (List.mem_cons_self y r), h.2⟩

theorem mem_insertS {y x : Nat} {l : List Nat} :
    y ∈ insertS x l ↔ y = x ∨ y ∈ l := by
  induction l with
  | nil => simp [insertS]
  | cons a t ih =>
    simp only [insertS]
    split_ifs with h1 h2
    · simp only [List.mem_cons] <;> tauto
    · subst h2; simp only [List.mem_cons] <;> tauto
    · simp only [List.mem_cons, ih] <;> tauto

theorem canon_insertS {x : Nat} {l : List Nat} (h : Canon l) :
    Canon (insertS x l) := by
  induction l with
  | nil => simp [insertS, Canon]
  | cons a t ih =>
    rw [Canon, List.pairwise_cons] at h
    simp only [insertS, Canon]
    split_ifs with h1 h2
    · refine List.Pairwise.cons ?_ (List.Pairwise.cons h.1 h.2)
      intro y hy
      rcases List.mem_cons.mp hy with rfl | hyt
      · exact h1
      · exact h1.trans (h.1 y hyt)
    · exact List.Pairwise.cons h.1 h.2
    · have h3 : a < x := by omega
      refine List.Pairwise.cons ?_ (ih h.2)
      intro y hy
      rcases mem_insertS.mp hy with rfl | hyt
      · exact h3
      · exact h.1 y hyt

theorem canon_canonList (l : List Nat) : Canon (canonList l) := by
  induction l with
  | nil => simp [canonList, Canon]
  | cons a t ih => exact canon_insertS ih

theorem mem_canonList {y : Nat} {l : List Nat} : y ∈ canonList l ↔ y ∈ l := by
  induction l with
  | nil => simp [canonList]
  | cons a t ih =>
    show y ∈ insertS a (canonList t) ↔ _
    rw [mem_insertS, ih]
    simp

theorem canon_apply_update (d u : YDoc) : Canon (apply_update d u) := by
  unfold apply_update
  induction d with
  | nil => exact canon_canonList u
  | cons a t ih => exact canon_insertS ih

theorem mem_apply_update {y : Nat} {d u : YDoc} :
    y ∈ apply_update d u ↔ y ∈ d ∨ y ∈ u := by
  unfold apply_update
  induction d with
  | nil => simpa using mem_canonList
  | cons a t ih =>
    show y ∈ insertS a (t.foldr insertS (canonList u)) ↔ _
    rw [mem_insertS, ih]
    simp
    tauto

/-- Canonical lists with the same members are equal. -/
theorem canon_ext {l₁ l₂ : List Nat} (h₁ : Canon l₁) (h₂ : Canon l₂)
    (hm : ∀ a, a ∈ l₁ ↔ a ∈ l₂) : l₁ = l₂ := by
  refine List.eq_of_perm_of_sorted ?_ (List.Sorted.le_of_lt h₁) (List.Sorted.le_of_lt h₂)
  refine (List.perm_ext_iff_of_nodup ?_ ?_).mpr hm
  · exact (h₁.imp fun h => Nat.ne_of_lt h)
  · exact (h₂.imp fun h => Nat.ne_of_lt h)

theorem canonList_eq_self {l : List Nat} (h : Canon l) : canonList l = l :=
  canon_ext (canon_canonList l) h (fun a => mem_canonList)

theorem canon_of_decode {b : Bytes} {d : YDoc} (h : decode_v1 b = some d) :
    Canon d := by
  match b with
  | [] => exact absurd h (by simp [decode_v1])
  | tag :: ops =>
    rw [decode_v1] at h
    by_cases hc : (tag == 0 && strictAsc ops) = true
    · rw [if_pos hc] at h
      cases h
      exact strictAsc_iff.mp (Bool.and_eq_true .. ▸ hc).2
    · rw [if_neg hc] at h; cases h

theorem decode_v1_encode {d : YDoc} (h : Canon d) :
    decode_v1 (encode_state_as_update_v1 d) = some d := by
  show (if (0 == 0 && strictAsc d) then some d else none) = some d
  rw [if_pos]
  rw [Bool.and_eq_true]
  exact ⟨rfl, strictAsc_iff.mpr h⟩

theorem sv_decode_v1_encode {d : YDoc} (h : Canon d) :
    sv_decode_v1 (encode_state_vector_v1 d) = some d := by
  show (if (1 == 1 && strictAsc d) then some d else none) = some d
  rw [if_pos]
  rw [Bool.and_eq_true]
  exact ⟨rfl, strictAsc_iff.mpr h⟩

/-! ### Generic lemmas about keyed row lists

Every table upsert has the shape: replace the matching rows when the key is
present (`l.any`), append otherwise; every point read is a
`List.find?` on the key. The lemmas below cover that shape once. -/
section TableLemmas

variable {α : Type} (key : α → Nat)

theorem find?_replace_self (l : List α) (new : α) (id : Nat)
    (hnew : key new = id) (hany : l.any (fun r => key r == id) = true) :
    (l.map (fun r => if key r = id then new else r)).find?
      (fun r => key r == id) = some new := by
  induction l with
  | nil => simp at hany
  | cons h t ih =>
    by_cases hh : key h = id
    · simp [List.find?, hh, hnew]
    · have hb : (key h == id) = false := by simpa using hh
      simp only [List.map_cons, if_neg hh, List.find?, hb]
      refine ih ?_
      simpa [List.any_cons, hb] using hany

theorem find?_replace_other (l : List α) (new : α) (id v : Nat)
    (hnew : key new = id) (hv : v ≠ id) :
    (l.map (fun r => if key r = id then new else r)).find?
      (fun r => key r == v) = l.find? (fun r => key r == v) := by
  induction l with
  | nil => rfl
  | cons h t ih =>
    by_cases hh : key h = id
    · have h1 : (key new == v) = false := by
        simp [hnew]; exact fun hc => hv hc.symm
      have h2 : (key h == v) = false := by
        simp [hh]; exact fun hc => hv hc.symm
      simp only [List.map_cons, if_pos hh, List.find?, h1, h2]
      exact ih
    · simp only [List.map_cons, if_neg hh, List.find?]
      cases hf : (key h == v) with
      | true => rfl
      | false => exact ih

theorem find?_append_single (l : List α) (x : α) (p : α → Bool)
    (h : l.find? p = none) :
    (l ++ [x]).find? p = if p x then some x else none := by
  induction l with
  | nil =>
    show List.find? p [x] = _
    rw [List.find?_cons]
    cases hp : p x <;> simp [hp]
  | cons a t ih =>
    rw [List.find?_cons] at h
    split at h
    · cases h
    · rw [List.cons_append, List.find?_cons]
      split
      · simp_all
      · exact ih h

theorem map_key_replace (l : List α) (new : α) (id : Nat)
    (hnew : key new = id) :
    (l.map (fun r => if key r = id then new else r)).map key = l.map key := by
  rw [List.map_map]
  refine List.map_congr_left ?_
  intro r _
  by_cases hh : key r = id
  · simp [hh, hnew]
  · simp [hh]

theorem mem_replace {l : List α} {new r : α} {id : Nat}
    (h : r ∈ l.map (fun r => if key r = id then new else r)) :
    r = new ∨ r ∈ l := by
  obtain ⟨r0, hr0, hr⟩ := List.mem_map.mp h
  by_cases hc : key r0 = id
  · left; rw [← hr, if_pos hc]
  · right; rw [← hr, if_neg hc]; exact hr0

theorem find?_eq_none_iff_any (l : List α) (p : α → Bool) :
    l.find? p = none ↔ l.any p = false := by
  rw [List.find?_eq_none, List.any_eq_false]

end TableLemmas

/-! ### Lemmas about the row operations -/
theorem selectCrdt_upsertCrdt_self (db : Db) (row : CrdtRow) :
    selectCrdt (upsertCrdt db row) row.note_id = some row := by
  unfold upsertCrdt selectCrdt
  split
  case isTrue hany =>
    exact find?_replace_self (fun r => r.note_id) db.crdt_states row
      row.note_id rfl hany
  case isFalse hany =>
    have hnone : db.crdt_states.find? (fun r => r.note_id == row.note_id) = none :=
      (find?_eq_none_iff_any _ _).mpr (by simpa using hany)
    show (db.crdt_states ++ [row]).find? (fun r => r.note_id == row.note_id) = some row
    rw [find?_append_single _ _ _ hnone]
    simp

theorem selectCrdt_upsertCrdt_other (db : Db) (row : CrdtRow) (v : Uuid)
    (hv : v ≠ row.note_id) :
    selectCrdt (upsertCrdt db row) v = selectCrdt db v := by
  unfold upsertCrdt selectCrdt
  split
  case isTrue hany =>
    exact find?_replace_other (fun r => r.note_id) db.crdt_states row
      row.note_id v rfl hv
  case isFalse hany =>
    show (db.crdt_states ++ [row]).find? _ = _
    cases hfind : db.crdt_states.find? (fun r => r.note_id == v) with
    | some r => rw [List.find?_append, hfind]; rfl
    | none =>
      have hb : (row.note_id == v) = false := by
        simp; exact fun hc => hv hc.symm
      rw [find?_append_single _ _ _ hfind]
      simp [hfind, hb]

theorem upsertCrdt_notes (db : Db) (row : CrdtRow) :
    (upsertCrdt db row).notes = db.notes := by
  unfold upsertCrdt; split <;> rfl

theorem upsertCrdt_folders (db : Db) (row : CrdtRow) :
    (upsertCrdt db row).folders = db.folders := by
  unfold upsertCrdt; split <;> rfl

theorem mem_upsertCrdt {db : Db} {row r : CrdtRow}
    (h : r ∈ (upsertCrdt db row).crdt_states) :
    r = row ∨ r ∈ db.crdt_states := by
  unfold upsertCrdt at h
  split at h
  case isTrue => exact mem_replace (fun r => r.note_id) h
  case isFalse =>
    rcases List.mem_append.mp h with hmem | hmem
    · right; exact hmem
    · left; simpa using hmem

theorem mem_insertCrdtIfAbsent {db : Db} {row r : CrdtRow}
    (h : r ∈ (insertCrdtIfAbsent db row).crdt_states) :
    r = row ∨ r ∈ db.crdt_states := by
  unfold insertCrdtIfAbsent at h
  split at h
  case isTrue => right; exact h
  case isFalse =>
    rcases List.mem_append.mp h with hmem | hmem
    · right; exact hmem
    · left; simpa using hmem

theorem insertCrdtIfAbsent_notes (db : Db) (row : CrdtRow) :
    (insertCrdtIfAbsent db row).notes = db.notes := by
  unfold insertCrdtIfAbsent; split <;> rfl

/-! ### Lemmas about the merge step -/
theorem canon_nil : Canon ([] : List Nat) := List.Pairwise.nil

theorem canon_mergeDoc (e : Option Bytes) (b : Bytes) : Canon (mergeDoc e b) := by
  unfold mergeDoc
  cases e with
  | none =>
    cases hd : decode_v1 b with
    | some u => simpa [hd] using canon_apply_update [] u
    | none => simpa [hd] using canon_nil
  | some eb =>
    cases he : decode_v1 eb with
    | some u0 =>
      cases hd : decode_v1 b with
      | some u => simpa [hd, he] using canon_apply_update (apply_update [] u0) u
      | none => simpa [hd, he] using canon_apply_update [] u0
    | none =>
      cases hd : decode_v1 b with
      | some u => simpa [hd, he] using canon_apply_update [] u
      | none => simpa [hd, he] using canon_nil

theorem mem_mergeDoc {y : Nat} (e : Option Bytes) (b : Bytes) :
    y ∈ mergeDoc e b ↔
      (∃ eb u, e = some eb ∧ decode_v1 eb = some u ∧ y ∈ u) ∨
      (∃ u, decode_v1 b = some u ∧ y ∈ u) := by
  unfold mergeDoc
  cases e with
  | none =>
    cases hd : decode_v1 b with
    | some u => simp [hd, mem_apply_update]
    | none => simp [hd]
  | some eb =>
    cases he : decode_v1 eb with
    | some u0 =>
      cases hd : decode_v1 b with
      | some u => simp [hd, he, mem_apply_update] <;> tauto
      | none => simp [hd, he, mem_apply_update]
    | none =>
      cases hd : decode_v1 b with
      | some u => simp [hd, he, mem_apply_update]
      | none => simp [hd, he]

/-- Merging the stored snapshot of a merge with the same update again gives
the same document back. -/
theorem mergeDoc_idem (e : Option Bytes) (b : Bytes) :
    mergeDoc (some (encode_state_as_update_v1 (mergeDoc e b))) b = mergeDoc e b := by
  have hc : Canon (mergeDoc e b) := canon_mergeDoc e b
  refine canon_ext (canon_mergeDoc _ _) hc ?_
  intro a
  rw [mem_mergeDoc, mem_mergeDoc]
  constructor
  · rintro (⟨eb, u, heb, hdec, hmem⟩ | ⟨u, hdec, hmem⟩)
    · cases heb
      rw [decode_v1_encode hc] at hdec
      cases hdec
      exact (mem_mergeDoc e b).mp hmem
    · exact Or.inr ⟨u, hdec, hmem⟩
  · intro h
    exact Or.inl ⟨_, _, rfl, decode_v1_encode hc, (mem_mergeDoc e b).mpr h⟩

theorem mergeStep_select_self (db : Db) (now : Time) (id : Uuid) (upd : Bytes) :
    selectCrdt (mergeStep db now id upd) id =
      some ⟨id, encode_state_as_update_v1 (mDoc db id upd),
        encode_state_vector_v1 (mDoc db id upd), now⟩ :=
  selectCrdt_upsertCrdt_self db _

theorem mergeStep_select_other (db : Db) (now : Time) (id : Uuid) (upd : Bytes)
    (v : Uuid) (hv : v ≠ id) :
    selectCrdt (mergeStep db now id upd) v = selectCrdt db v :=
  selectCrdt_upsertCrdt_other db _ v hv

theorem mergeStep_notes (db : Db) (now : Time) (id : Uuid) (upd : Bytes) :
    (mergeStep db now id upd).notes = db.notes :=
  upsertCrdt_notes db _

/-! ### Frame lemmas: metadata writes do not touch `crdt_states`, and
conversely -/
theorem upsert_metadata_if_newer_crdt (db : Db) (m : NoteMetadata) :
    (upsert_metadata_if_newer db m).crdt_states = db.crdt_states := by
  unfold upsert_metadata_if_newer; split <;> rfl

theorem upsert_metadata_if_newer_folders (db : Db) (m : NoteMetadata) :
    (upsert_metadata_if_newer db m).folders = db.folders := by
  unfold upsert_metadata_if_newer; split <;> rfl

theorem upsertNoteUnconditional_crdt (db : Db) (m : NoteMetadata) :
    (upsertNoteUnconditional db m).crdt_states = db.crdt_states := by
  unfold upsertNoteUnconditional; split <;> rfl

theorem saveNoteUpsert_crdt (db : Db) (row : NoteRow) :
    (saveNoteUpsert db row).crdt_states = db.crdt_states := by
  unfold saveNoteUpsert; split <;> rfl

theorem metaLoop_crdt (ms : List NoteMetadata) (db : Db) :
    (metaLoop ms db).crdt_states = db.crdt_states := by
  induction ms generalizing db with
  | nil => rfl
  | cons m rest ih => rw [metaLoop, ih, upsert_metadata_if_newer_crdt]

/-! ### The push loop -/
theorem pushEntry_ok_inv {now : Time} {db db' : Db} {kv : WireStr × WireStr}
    (h : pushEntry now db kv = .ok db') :
    ∃ id upd, parseUuid kv.1 = some id ∧ b64decode kv.2 = some upd ∧
      db' = mergeStep db now id upd := by
  unfold pushEntry at h
  cases hp : parseUuid kv.1 with
  | none => rw [hp] at h; cases h
  | some id =>
    rw [hp] at h
    cases hb : b64decode kv.2 with
    | none => rw [hb] at h; cases h
    | some upd =>
      rw [hb] at h
      cases h
      exact ⟨id, upd, rfl, rfl, rfl⟩

theorem pushLoop_preserves (P : Db → Prop)
    (hP : ∀ db now id upd, P db → P (mergeStep db now id upd)) (now : Time) :
    ∀ (l : List (WireStr × WireStr)) (db db' : Db),
      pushLoop now l db = .ok db' → P db → P db' := by
  intro l
  induction l with
  | nil =>
    intro db db' h hp
    rw [pushLoop] at h
    cases h
    exact hp
  | cons kv rest ih =>
    intro db db' h hp
    rw [pushLoop] at h
    cases he : pushEntry now db kv with
    | error e => rw [he] at h; cases h
    | ok db1 =>
      rw [he] at h
      obtain ⟨id, upd, _, _, rfl⟩ := pushEntry_ok_inv he
      exact ih _ _ h (hP db now id upd hp)

theorem pushLoop_notes (now : Time) (l : List (WireStr × WireStr))
    (db db' : Db) (h : pushLoop now l db = .ok db') : db'.notes = db.notes :=
  pushLoop_preserves (fun d => d.notes = db.notes)
    (fun d _ id upd hp => (mergeStep_notes d _ id upd).trans hp) now l db db' h rfl

theorem pushLoop_folders (now : Time) (l : List (WireStr × WireStr))
    (db db' : Db) (h : pushLoop now l db = .ok db') : db'.folders = db.folders :=
  pushLoop_preserves (fun d => d.folders = db.folders)
    (fun d _ id upd hp => (upsertCrdt_folders d _).trans hp) now l db db' h rfl

/-- Identifier uniqueness of `crdt_states` (its primary key) is preserved by
the snapshot upsert. -/
theorem upsertCrdt_ids_nodup {db : Db} (row : CrdtRow)
    (h : (db.crdt_states.map (fun r => r.note_id)).Nodup) :
    ((upsertCrdt db row).crdt_states.map (fun r => r.note_id)).Nodup := by
  unfold upsertCrdt
  split
  case isTrue hany =>
    show ((db.crdt_states.map
      (fun r => if r.note_id = row.note_id then row else r)).map
        (fun r => r.note_id)).Nodup
    rw [map_key_replace (fun r => r.note_id) db.crdt_states row row.note_id rfl]
    exact h
  case isFalse hany =>
    show ((db.crdt_states ++ [row]).map (fun r => r.note_id)).Nodup
    rw [List.map_append, List.nodup_append]
    refine ⟨h, by simp, ?_⟩
    intro a ha hb
    simp only [List.map_cons, List.map_nil, List.mem_singleton] at hb
    obtain ⟨r0, hr0, hkey⟩ := List.mem_map.mp ha
    rw [List.any_eq_true] at hany
    push_neg at hany
    exact hany r0 hr0 (by simp [hkey, hb])

theorem pushLoop_ids_nodup (now : Time) (l : List (WireStr × WireStr))
    (db db' : Db) (h : pushLoop now l db = .ok db')
    (hn : (db.crdt_states.map (fun r => r.note_id)).Nodup) :
    (db'.crdt_states.map (fun r => r.note_id)).Nodup :=
  pushLoop_preserves (fun d => (d.crdt_states.map (fun r => r.note_id)).Nodup)
    (fun d _ id upd hp => upsertCrdt_ids_nodup _ hp) now l db db' h hn

/-! ### Inversion of `sync_crdt` -/
theorem sync_crdt_ok_inv {db : Db} {now : Time} {req : CrdtSyncRequest}
    {db' : Db} {resp : CrdtSyncResponse}
    (h : sync_crdt db now req = .ok (db', resp)) :
    ∃ db1, pushLoop now req.updates db = .ok db1 ∧
      db' = metaLoop req.metadata db1 ∧
      resp.updates = (includeLoop db' req.metadata (db'.notes.map toMeta)
        (newNotesLoop (newNotesList db' req.state_vectors)
          (diffLoop db' req.state_vectors []), [])).1 ∧
      resp.metadata = (includeLoop db' req.metadata (db'.notes.map toMeta)
        (newNotesLoop (newNotesList db' req.state_vectors)
          (diffLoop db' req.state_vectors []), [])).2 ∧
      resp.server_time = now := by
  unfold sync_crdt at h
  cases hp : pushLoop now req.updates db with
  | error e =>
    rw [hp] at h
    simp at h
  | ok db1 =>
    rw [hp] at h
    simp only [ite_self] at h
    cases h
    exact ⟨db1, rfl, rfl, rfl, rfl, rfl⟩

theorem pushEntry_error_inv {now : Time} {db : Db} {kv : WireStr × WireStr}
    {e : Status} (h : pushEntry now db kv = .error e) : e = badRequest := by
  unfold pushEntry at h
  cases hp : parseUuid kv.1 with
  | none => rw [hp] at h; cases h; rfl
  | some id =>
    rw [hp] at h
    cases hb : b64decode kv.2 with
    | none => rw [hb] at h; cases h; rfl
    | some upd => rw [hb] at h; cases h

theorem pushEntry_bad {now : Time} {db : Db} {kv : WireStr × WireStr}
    (hbad : parseUuid kv.1 = none ∨ b64decode kv.2 = none) :
    pushEntry now db kv = .error badRequest := by
  unfold pushEntry
  rcases hbad with hp | hb
  · rw [hp]
  · cases hp : parseUuid kv.1 with
    | none => rfl
    | some id => rw [hb]

theorem pushLoop_error (now : Time) :
    ∀ (l : List (WireStr × WireStr)) (db : Db) (kv : WireStr × WireStr),
      kv ∈ l → (parseUuid kv.1 = none ∨ b64decode kv.2 = none) →
      pushLoop now l db = .error badRequest := by
  intro l
  induction l with
  | nil => intro db kv hmem; cases hmem
  | cons hd rest ih =>
    intro db kv hmem hbad
    rw [pushLoop]
    rcases List.mem_cons.mp hmem with rfl | hrest
    · rw [pushEntry_bad hbad]
    · cases he : pushEntry now db hd with
      | error e => rw [pushEntry_error_inv he]
      | ok db1 => exact ih db1 kv hrest hbad

theorem sync_crdt_badRequest {db : Db} {now : Time} {req : CrdtSyncRequest}
    {kv : WireStr × WireStr} (hmem : kv ∈ req.updates)
    (hbad : parseUuid kv.1 = none ∨ b64decode kv.2 = none) :
    sync_crdt db now req = .error badRequest := by
  unfold sync_crdt
  rw [pushLoop_error now req.updates db kv hmem hbad]

/-- A request whose pushed updates all parse is never rejected. -/
theorem pushLoop_ok_of_wf (now : Time) :
    ∀ (l : List (WireStr × WireStr)) (db : Db),
      (∀ kv ∈ l, (parseUuid kv.1).isSome ∧ (b64decode kv.2).isSome) →
      ∃ db', pushLoop now l db = .ok db' := by
  intro l
  induction l with
  | nil => intro db _; exact ⟨db, rfl⟩
  | cons hd rest ih =>
    intro db hwf
    obtain ⟨hp, hb⟩ := hwf hd (List.mem_cons_self hd rest)
    cases hps : parseUuid hd.1 with
    | none => rw [hps] at hp; cases hp
    | some id =>
      cases hbs : b64decode hd.2 with
      | none => rw [hbs] at hb; cases hb
      | some upd =>
        obtain ⟨db', hdb'⟩ := ih (mergeStep db now id upd)
          (fun kv hkv => hwf kv (List.mem_cons_of_mem hd hkv))
        refine ⟨db', ?_⟩
        rw [pushLoop]
        rw [show pushEntry now db hd = .ok (mergeStep db now id upd) from ?_]
        · exact hdb'
        · unfold pushEntry; rw [hps, hbs]

theorem subset_childStep (folders : List FolderRow) (s : Finset Uuid) :
    s ⊆ childStep folders s :=
  Finset.subset_union_left

theorem mem_childStep {folders : List FolderRow} {s : Finset Uuid} {x : Uuid}
    (h : x ∈ childStep folders s) :
    x ∈ s ∨ ∃ f ∈ folders, f.id = x ∧ ∃ p, f.parent_id = some p ∧ p ∈ s := by
  rcases Finset.mem_union.mp h with hs | hc
  · exact Or.inl hs
  · right
    rw [List.mem_toFinset, List.mem_map] at hc
    obtain ⟨f, hf, hfx⟩ := hc
    rw [List.mem_filter] at hf
    refine ⟨f, hf.1, hfx, ?_⟩
    cases hp : f.parent_id with
    | none => rw [hp] at hf; cases hf.2
    | some p =>
      refine ⟨p, rfl, ?_⟩
      have := hf.2
      rw [hp] at this
      exact of_decide_eq_true this

theorem childStep_mem_of_parent {folders : List FolderRow} {s : Finset Uuid}
    {f : FolderRow} {p : Uuid} (hf : f ∈ folders) (hp : f.parent_id = some p)
    (hps : p ∈ s) : f.id ∈ childStep folders s := by
  refine Finset.mem_union.mpr (Or.inr ?_)
  rw [List.mem_toFinset, List.mem_map]
  refine ⟨f, ?_, rfl⟩
  rw [List.mem_filter]
  exact ⟨hf, by rw [hp]; exact decide_eq_true hps⟩

theorem mem_cteSeed {folders : List FolderRow} {root x : Uuid} :
    x ∈ cteSeed folders root ↔ x = root ∧ ∃ f ∈ folders, f.id = root := by
  unfold cteSeed
  rw [List.mem_toFinset, List.mem_map]
  constructor
  · rintro ⟨f, hf, rfl⟩
    rw [List.mem_filter] at hf
    have : f.id = root := by simpa using hf.2
    exact ⟨this, f, hf.1, this⟩
  · rintro ⟨rfl, f, hf, hfr⟩
    exact ⟨f, List.mem_filter.mpr ⟨hf, by simp [hfr]⟩, hfr⟩

theorem descendants_eq_iterate (folders : List FolderRow) (root : Uuid) :
    descendants folders root =
      (childStep folders)^[folders.length] (cteSeed folders root) := rfl

theorem iterate_subset_succ (folders : List FolderRow) (s : Finset Uuid) (k : Nat) :
    (childStep folders)^[k] s ⊆ (childStep folders)^[k + 1] s := by
  rw [Function.iterate_succ_apply']
  exact subset_childStep folders _

theorem iterate_sound (folders : List FolderRow) (root : Uuid) :
    ∀ (k : Nat) (s : Finset Uuid),
      (∀ x ∈ s, InSubtree folders root x) →
      ∀ x ∈ (childStep folders)^[k] s, InSubtree folders root x := by
  intro k
  induction k with
  | zero => intro s hs; exact hs
  | succ k ih =>
    intro s hs x hx
    rw [Function.iterate_succ_apply] at hx
    refine ih (childStep folders s) ?_ x hx
    intro y hy
    rcases mem_childStep hy with hys | ⟨f, hf, hfy, p, hp, hps⟩
    · exact hs y hys
    · exact hfy ▸ InSubtree.child f p hf hp (hs p hps)

theorem descendants_sound {folders : List FolderRow} {root x : Uuid}
    (h : x ∈ descendants folders root) : InSubtree folders root x := by
  refine iterate_sound folders root folders.length (cteSeed folders root) ?_ x h
  intro y hy
  rw [mem_cteSeed] at hy
  exact hy.1 ▸ InSubtree.root

theorem iterate_bounded (folders : List FolderRow) (root : Uuid) :
    ∀ k, (childStep folders)^[k] (cteSeed folders root) ⊆
      (folders.map (fun f => f.id)).toFinset := by
  intro k
  induction k with
  | zero =>
    intro x hx
    rw [Function.iterate_zero_apply, mem_cteSeed] at hx
    obtain ⟨rfl, f, hf, hfr⟩ := hx
    exact List.mem_toFinset.mpr (List.mem_map.mpr ⟨f, hf, hfr⟩)
  | succ k ih =>
    rw [Function.iterate_succ_apply']
    intro x hx
    rcases mem_childStep hx with hxs | ⟨f, hf, hfx, _, _, _⟩
    · exact ih hxs
    · exact List.mem_toFinset.mpr (List.mem_map.mpr ⟨f, hf, hfx⟩)

theorem stable_propagate {α : Type} (f : α → α) (x : α) (k : Nat)
    (h : f (f^[k] x) = f^[k] x) : ∀ m, f^[k + m] x = f^[k] x := by
  intro m
  induction m with
  | zero => rfl
  | succ m ih =>
    rw [show k + (m + 1) = (k + m) + 1 from rfl, Function.iterate_succ_apply', ih, h]

theorem descendants_fixpoint (folders : List FolderRow) (root : Uuid) :
    childStep folders (descendants folders root) = descendants folders root := by
  set g := childStep folders with hg
  set s0 := cteSeed folders root with hs0
  set N := folders.length with hN
  have hbound : ∀ k, (g^[k] s0).card ≤ N := by
    intro k
    calc (g^[k] s0).card
        ≤ (folders.map (fun f => f.id)).toFinset.card :=
          Finset.card_le_card (iterate_bounded folders root k)
      _ ≤ (folders.map (fun f => f.id)).length := List.toFinset_card_le _
      _ = N := List.length_map _ _
  have hstable : ∃ k, k ≤ N ∧ g (g^[k] s0) = g^[k] s0 := by
    by_contra hcon
    push_neg at hcon
    have hgrow : ∀ k, k ≤ N + 1 → k ≤ (g^[k] s0).card := by
      intro k
      induction k with
      | zero => intro _; exact Nat.zero_le _
      | succ k ih =>
        intro hk
        have hne : g (g^[k] s0) ≠ g^[k] s0 := hcon k (by omega)
        have hsub : g^[k] s0 ⊂ g (g^[k] s0) :=
          Finset.ssubset_iff_subset_ne.mpr
            ⟨subset_childStep folders _, fun he => hne he.symm⟩
        have hcard : (g^[k] s0).card < (g (g^[k] s0)).card :=
          Finset.card_lt_card hsub
        have := ih (by omega)
        rw [Function.iterate_succ_apply']
        omega
    have h1 := hgrow (N + 1) le_rfl
    have h2 := hbound (N + 1)
    omega
  obtain ⟨k, hk, hfix⟩ := hstable
  obtain ⟨m, hm⟩ := Nat.exists_eq_add_of_le hk
  have hdesc : descendants folders root = g^[k] s0 := by
    rw [descendants_eq_iterate]
    show g^[N] s0 = g^[k] s0
    rw [hm]
    exact stable_propagate g s0 k hfix m
  rw [hdesc, hfix]

theorem seed_subset_descendants (folders : List FolderRow) (root : Uuid) :
    cteSeed folders root ⊆ descendants folders root := by
  rw [descendants_eq_iterate]
  induction folders.length with
  | zero => exact Finset.Subset.refl _
  | succ k ih =>
    exact ih.trans (iterate_subset_succ folders (cteSeed folders root) k)

theorem descendants_complete {folders : List FolderRow} {root x : Uuid}
    (hroot : ∃ f ∈ folders, f.id = root)
    (h : InSubtree folders root x) : x ∈ descendants folders root := by
  induction h with
  | root =>
    exact seed_subset_descendants folders root
      (mem_cteSeed.mpr ⟨rfl, hroot⟩)
  | child f p hf hp hr ih =>
    rw [← descendants_fixpoint]
    exact childStep_mem_of_parent hf hp ih

theorem descendants_empty_of_absent {folders : List FolderRow} {root : Uuid}
    (h : ¬ ∃ f ∈ folders, f.id = root) : descendants folders root = ∅ := by
  rw [descendants_eq_iterate]
  have hseed : cteSeed folders root = ∅ := by
    rw [Finset.eq_empty_iff_forall_not_mem]
    intro x hx
    rw [mem_cteSeed] at hx
    exact h hx.2
  rw [hseed]
  have hstep : childStep folders ∅ = ∅ := by
    rw [Finset.eq_empty_iff_forall_not_mem]
    intro x hx
    rcases mem_childStep hx with hc | ⟨_, _, _, p, _, hp⟩
    · exact absurd hc (Finset.not_mem_empty x)
    · exact absurd hp (Finset.not_mem_empty p)
  induction folders.length with
  | zero => rfl
  | succ k ih => rw [Function.iterate_succ_apply', ih, hstep]

/-! ### Inversion of `delete_folder` -/
theorem delete_folder_ok_inv {db : Db} {now : Time} {idStr : WireStr} {db' : Db}
    (h : delete_folder db now idStr = .ok db') :
    ∃ fid, parseUuid idStr = some fid ∧
      (db.folders.filter
        (fun f => decide (f.id ∈ descendants db.folders fid))).length ≠ 0 ∧
      db' = { db with folders := db.folders.map (fun f =>
        if f.id ∈ descendants db.folders fid
        then { f with is_deleted := true, updated_at := now } else f) } := by
  unfold delete_folder at h
  cases hp : parseUuid idStr with
  | none => rw [hp] at h; cases h
  | some fid =>
    rw [hp] at h
    have h' : (if (db.folders.filter
          (fun f => decide (f.id ∈ descendants db.folders fid))).length = 0
        then (Except.error notFound : Except Status Db)
        else .ok { db with folders := db.folders.map (fun f =>
          if f.id ∈ descendants db.folders fid
          then { f with is_deleted := true, updated_at := now } else f) }) =
        .ok db' := h
    refine ⟨fid, rfl, ?_⟩
    by_cases hz : (db.folders.filter
        (fun f => decide (f.id ∈ descendants db.folders fid))).length = 0
    · rw [if_pos hz] at h'; cases h'
    · rw [if_neg hz] at h'
      cases h'
      exact ⟨hz, rfl⟩

theorem root_present_of_filter_ne {db : Db} {fid : Uuid}
    (hz : (db.folders.filter
      (fun f => decide (f.id ∈ descendants db.folders fid))).length ≠ 0) :
    ∃ f ∈ db.folders, f.id = fid := by
  have hne : db.folders.filter
      (fun f => decide (f.id ∈ descendants db.folders fid)) ≠ [] := by
    intro he; exact hz (by rw [he]; rfl)
  obtain ⟨x, hx⟩ := List.exists_mem_of_ne_nil _ hne
  rw [List.mem_filter] at hx
  by_contra habs
  have hd := descendants_empty_of_absent habs
  have := of_decide_eq_true hx.2
  rw [hd] at this
  exact absurd this (Finset.not_mem_empty _)

/-! ### Metadata upserts: point reads after the write -/
theorem keyed_unique {α : Type} (key : α → Nat) {l : List α}
    (h : (l.map key).Nodup) {a b : α} (ha : a ∈ l) (hb : b ∈ l)
    (hk : key a = key b) : a = b := by
  induction l with
  | nil => cases ha
  | cons x t ih =>
    rw [List.map_cons, List.nodup_cons] at h
    rcases List.mem_cons.mp ha with rfl | hat
    · rcases List.mem_cons.mp hb with rfl | hbt
      · rfl
      · exact absurd (hk ▸ List.mem_map.mpr ⟨b, hbt, rfl⟩) h.1
    · rcases List.mem_cons.mp hb with rfl | hbt
      · exact absurd (List.mem_map.mpr ⟨a, hat, hk⟩) h.1
      · exact ih h.2 hat hbt

theorem find?_replace_if_self {α : Type} (key : α → Nat) (q : α → Prop)
    [DecidablePred q] (new : α) (k : Nat) (hknew : key new = k) :
    ∀ (l : List α) (r : α), l.find? (fun x => key x == k) = some r → q r →
      (l.map (fun x => if key x = k ∧ q x then new else x)).find?
        (fun x => key x == k) = some new := by
  intro l
  induction l with
  | nil => intro r h; simp at h
  | cons a t ih =>
    intro r h hq
    by_cases ha : (key a == k) = true
    · rw [show List.find? (fun x => key x == k) (a :: t) = some a from
        List.find?_cons_of_pos t ha] at h
      cases h
      have hcond : key a = k ∧ q a := ⟨by simpa using ha, hq⟩
      rw [List.map_cons, if_pos hcond]
      exact List.find?_cons_of_pos _ (by simpa using hknew)
    · rw [show List.find? (fun x => key x == k) (a :: t) =
          List.find? (fun x => key x == k) t from
        List.find?_cons_of_neg t (by simpa using ha)] at h
      have hcond : ¬ (key a = k ∧ q a) := fun hc => ha (by simp [hc.1])
      rw [List.map_cons, if_neg hcond]
      rw [show List.find? (fun x => key x == k)
            ((a : α) :: t.map (fun x => if key x = k ∧ q x then new else x)) =
          List.find? (fun x => key x == k)
            (t.map (fun x => if key x = k ∧ q x then new else x)) from
        List.find?_cons_of_neg _ (by simpa using ha)]
      exact ih r h hq

theorem map_replace_if_id {α : Type} (key : α → Nat) (q : α → Prop)
    [DecidablePred q] (new : α) (k : Nat) (l : List α)
    (hl : ∀ x ∈ l, key x = k → ¬ q x) :
    l.map (fun x => if key x = k ∧ q x then new else x) = l := by
  have hmap : l.map (fun x => if key x = k ∧ q x then new else x) = l.map id := by
    refine List.map_congr_left ?_
    intro x hx
    by_cases hk : key x = k
    · rw [if_neg (fun hc => hl x hx hk hc.2)]; rfl
    · rw [if_neg (fun hc => hk hc.1)]; rfl
  rw [hmap, List.map_id]

theorem any_true_of_find?_some {α : Type} {l : List α} {p : α → Bool} {r : α}
    (h : l.find? p = some r) : l.any p = true := by
  cases hb : l.any p with
  | true => rfl
  | false =>
    rw [(find?_eq_none_iff_any _ _).mpr hb] at h
    cases h

/-- First-time insert through the conditional LWW upsert always succeeds. -/
theorem upsert_meta_insert (db : Db) (m : NoteMetadata)
    (hnone : selectNote db m.id = none) :
    selectNote (upsert_metadata_if_newer db m) m.id = some (metaRow m) := by
  unfold upsert_metadata_if_newer
  have hany : db.notes.any (fun r => r.id == m.id) = false :=
    (find?_eq_none_iff_any _ _).mp hnone
  rw [if_neg (by simp [hany])]
  show (db.notes ++ [metaRow m]).find? (fun r => r.id == m.id) = some (metaRow m)
  rw [find?_append_single _ _ _ hnone]
  simp [metaRow]

/-- A strictly newer write through the conditional LWW upsert replaces the
stored row. -/
theorem upsert_meta_newer (db : Db) (m : NoteMetadata) (r : NoteRow)
    (hfind : selectNote db m.id = some r)
    (hlt : r.updated_at < m.updated_at) :
    selectNote (upsert_metadata_if_newer db m) m.id = some (metaRow m) := by
  unfold upsert_metadata_if_newer
  rw [if_pos (any_true_of_find?_some hfind)]
  have hfind' : List.find? (fun x => x.id == m.id) db.notes = some r := hfind
  show List.find? (fun x => x.id == m.id)
    (db.notes.map (fun x =>
      if x.id = m.id ∧ x.updated_at < m.updated_at then metaRow m else x)) =
    some (metaRow m)
  exact find?_replace_if_self (fun x => x.id)
    (fun x => x.updated_at < m.updated_at) (metaRow m) m.id rfl
    db.notes r hfind' hlt

/-- A write whose `mtime` does not strictly exceed the stored one changes
nothing under the conditional LWW upsert. -/
theorem upsert_meta_stale (db : Db) (m : NoteMetadata) (r : NoteRow)
    (hnodup : (db.notes.map (fun x => x.id)).Nodup)
    (hfind : selectNote db m.id = some r)
    (hge : m.updated_at ≤ r.updated_at) :
    upsert_metadata_if_newer db m = db := by
  unfold upsert_metadata_if_newer
  rw [if_pos (any_true_of_find?_some hfind)]
  have hl : ∀ x ∈ db.notes, x.id = m.id → ¬ x.updated_at < m.updated_at := by
    intro x hx hxid
    have hr : r ∈ db.notes := List.mem_of_find?_eq_some hfind
    have hrid : r.id = m.id := by
      have := List.find?_some hfind
      simpa using this
    have hxr : x = r :=
      keyed_unique (fun y => y.id) hnodup hx hr
        (by show x.id = r.id; rw [hxid, hrid])
    subst hxr
    exact not_lt.mpr hge
  rw [map_replace_if_id (fun x => x.id)
    (fun x => x.updated_at < m.updated_at) (metaRow m) m.id db.notes hl]

/-- Identifier uniqueness of `notes` is preserved by the conditional LWW
upsert. -/
theorem upsert_meta_ids_nodup {db : Db} (m : NoteMetadata)
    (h : (db.notes.map (fun r => r.id)).Nodup) :
    ((upsert_metadata_if_newer db m).notes.map (fun r => r.id)).Nodup := by
  unfold upsert_metadata_if_newer
  split
  case isTrue hany =>
    show ((db.notes.map (fun r =>
      if r.id = m.id ∧ r.updated_at < m.updated_at then metaRow m else r)).map
        (fun r => r.id)).Nodup
    have hmap : (db.notes.map (fun r =>
        if r.id = m.id ∧ r.updated_at < m.updated_at then metaRow m else r)).map
          (fun r => r.id) = db.notes.map (fun r => r.id) := by
      rw [List.map_map]
      refine List.map_congr_left ?_
      intro x _
      by_cases hc : x.id = m.id ∧ x.updated_at < m.updated_at
      · simp [hc, metaRow, hc.1]
      · simp [hc]
    rw [hmap]
    exact h
  case isFalse hany =>
    show ((db.notes ++ [metaRow m]).map (fun r => r.id)).Nodup
    rw [List.map_append, List.nodup_append]
    refine ⟨h, by simp, ?_⟩
    intro a ha hb
    simp only [List.map_cons, List.map_nil, List.mem_singleton] at hb
    obtain ⟨r0, hr0, hkey⟩ := List.mem_map.mp ha
    rw [List.any_eq_true] at hany
    push_neg at hany
    exact hany r0 hr0 (by simp [hkey, hb, metaRow])

/-- Point read after the unconditional websocket metadata upsert. -/
theorem ws_meta_select (db : Db) (m : NoteMetadata) :
    selectNote (upsertNoteUnconditional db m) m.id = some (metaRow m) := by
  unfold upsertNoteUnconditional selectNote
  split
  case isTrue hany =>
    exact find?_replace_self (fun r => r.id) db.notes (metaRow m) m.id rfl hany
  case isFalse hany =>
    have hnone : db.notes.find? (fun r => r.id == m.id) = none :=
      (find?_eq_none_iff_any _ _).mpr (by simpa using hany)
    show (db.notes ++ [metaRow m]).find? (fun r => r.id == m.id) = some (metaRow m)
    rw [find?_append_single _ _ _ hnone]
    simp [metaRow]

/-- Point read after the `save_note` upsert. -/
theorem selectNote_saveNoteUpsert_self (db : Db) (row : NoteRow) :
    selectNote (saveNoteUpsert db row) row.id = some row := by
  unfold saveNoteUpsert selectNote
  split
  case isTrue hany =>
    exact find?_replace_self (fun r => r.id) db.notes row row.id rfl hany
  case isFalse hany =>
    have hnone : db.notes.find? (fun r => r.id == row.id) = none :=
      (find?_eq_none_iff_any _ _).mpr (by simpa using hany)
    show (db.notes ++ [row]).find? (fun r => r.id == row.id) = some row
    rw [find?_append_single _ _ _ hnone]
    simp

/-- The `notes` table after `save_note` is exactly the upsert of the
returned row: the seeding branch touches only `crdt_states`. -/
theorem save_note_notes (db : Db) (now : Time) (freshId : Uuid)
    (note : NoteInput) :
    ((save_note db now freshId note).1).notes =
      (saveNoteUpsert db (save_note db now freshId note).2).notes := by
  simp only [save_note]
  split
  · split
    · rfl
    · exact insertCrdtIfAbsent_notes _ _
  · rfl

/-! ### The response updates map -/
theorem mlookup_minsert_self (m : List (WireStr × WireStr)) (k v : WireStr) :
    mlookup (minsert m k v) k = some v := by
  unfold mlookup minsert
  rw [show List.find? (fun p => p.1 == k) ((k, v) :: m) = some (k, v) from
    List.find?_cons_of_pos m (by simp)]
  rfl

theorem mlookup_minsert_other (m : List (WireStr × WireStr)) (k' v k : WireStr)
    (hk : k' ≠ k) : mlookup (minsert m k' v) k = mlookup m k := by
  unfold mlookup minsert
  rw [show List.find? (fun p => p.1 == k) ((k', v) :: m) =
      List.find? (fun p => p.1 == k) m from
    List.find?_cons_of_neg m (by simpa using hk)]

theorem mcontains_eq_isSome (m : List (WireStr × WireStr)) (k : WireStr) :
    mcontains m k = (mlookup m k).isSome := by
  unfold mcontains mlookup
  cases List.find? (fun p => p.1 == k) m <;> rfl

theorem mlookup_mem {m : List (WireStr × WireStr)} {k v : WireStr}
    (h : mlookup m k = some v) : ∃ p ∈ m, p.1 = k ∧ p.2 = v := by
  unfold mlookup at h
  cases hf : List.find? (fun p => p.1 == k) m with
  | none => rw [hf] at h; cases h
  | some p =>
    rw [hf] at h
    cases h
    exact ⟨p, List.mem_of_find?_eq_some hf, by simpa using List.find?_some hf, rfl⟩

/-! #### The diff loop -/
theorem diffValue_parse {db : Db} {kv : WireStr × WireStr} {v : WireStr}
    (h : diffValue db kv = some v) : (parseUuid kv.1).isSome = true := by
  unfold diffValue at h
  cases hp : parseUuid kv.1 with
  | none => rw [hp] at h; cases h
  | some id => rfl

theorem diffEntry_eq (db : Db) (acc : List (WireStr × WireStr))
    (kv : WireStr × WireStr) :
    diffEntry db acc kv = acc ∨
    ∃ v, (parseUuid kv.1).isSome = true ∧
      diffEntry db acc kv = minsert acc kv.1 v := by
  unfold diffEntry
  cases hv : diffValue db kv with
  | none => exact Or.inl rfl
  | some v => exact Or.inr ⟨v, diffValue_parse hv, rfl⟩

theorem diffEntry_mem {db : Db} {acc : List (WireStr × WireStr)}
    {kv : WireStr × WireStr} {p : WireStr × WireStr}
    (h : p ∈ diffEntry db acc kv) :
    p ∈ acc ∨ (p.1 = kv.1 ∧ (parseUuid kv.1).isSome = true) := by
  rcases diffEntry_eq db acc kv with he | ⟨v, hsome, he⟩
  · rw [he] at h
    exact Or.inl h
  · rw [he] at h
    rcases List.mem_cons.mp h with rfl | hacc
    · exact Or.inr ⟨rfl, hsome⟩
    · exact Or.inl hacc

theorem diffLoop_mem {db : Db} :
    ∀ (svs : List (WireStr × WireStr)) (acc : List (WireStr × WireStr))
      (p : WireStr × WireStr), p ∈ diffLoop db svs acc →
      p ∈ acc ∨ ∃ kv ∈ svs, p.1 = kv.1 ∧ (parseUuid kv.1).isSome := by
  intro svs
  induction svs with
  | nil => intro acc p h; exact Or.inl h
  | cons kv rest ih =>
    intro acc p h
    rw [diffLoop] at h
    rcases ih _ p h with hacc | ⟨kv', hkv', hp⟩
    · rcases diffEntry_mem hacc with hacc' | hp
      · exact Or.inl hacc'
      · exact Or.inr ⟨kv, List.mem_cons_self kv rest, hp⟩
    · exact Or.inr ⟨kv', List.mem_cons_of_mem kv hkv', hp⟩

/-! #### The unknown-notes loop -/
theorem newNotesLoop_pres :
    ∀ (l : List (Uuid × Bytes)) (acc : List (WireStr × WireStr))
      (k v : WireStr), mlookup acc k = some v →
      mlookup (newNotesLoop l acc) k = some v := by
  intro l
  induction l with
  | nil => intro acc k v h; exact h
  | cons p rest ih =>
    obtain ⟨id', st'⟩ := p
    intro acc k v h
    rw [newNotesLoop]
    by_cases hc : mcontains acc (uuidToStr id') = true
    · rw [if_pos hc]
      exact ih acc k v h
    · rw [if_neg hc]
      refine ih _ k v ?_
      have hnone : mlookup acc (uuidToStr id') = none := by
        rw [mcontains_eq_isSome] at hc
        cases hm : mlookup acc (uuidToStr id') with
        | none => rfl
        | some w => rw [hm] at hc; simp at hc
      have hne : uuidToStr id' ≠ k := by
        intro he
        rw [he, h] at hnone
        cases hnone
      rw [mlookup_minsert_other acc _ _ k hne]
      exact h

theorem newNotesLoop_mem :
    ∀ (l : List (Uuid × Bytes)) (acc : List (WireStr × WireStr))
      (p : WireStr × WireStr), p ∈ newNotesLoop l acc →
      p ∈ acc ∨ ∃ id, p.1 = uuidToStr id := by
  intro l
  induction l with
  | nil => intro acc p h; exact Or.inl h
  | cons q rest ih =>
    obtain ⟨id', st'⟩ := q
    intro acc p h
    rw [newNotesLoop] at h
    by_cases hc : mcontains acc (uuidToStr id') = true
    · rw [if_pos hc] at h
      exact ih acc p h
    · rw [if_neg hc] at h
      rcases ih _ p h with hmem | hid
      · rcases List.mem_cons.mp hmem with rfl | hacc
        · exact Or.inr ⟨id', rfl⟩
        · exact Or.inl hacc
      · exact Or.inr hid

theorem newNotesLoop_binds :
    ∀ (l : List (Uuid × Bytes)) (acc : List (WireStr × WireStr))
      (id : Uuid) (st : Bytes),
      (id, st) ∈ l →
      (∀ q ∈ l, q.1 = id → q.2 = st) →
      (mlookup acc (uuidToStr id) = none ∨
        mlookup acc (uuidToStr id) = some (b64encode st)) →
      mlookup (newNotesLoop l acc) (uuidToStr id) = some (b64encode st) := by
  intro l
  induction l with
  | nil => intro acc id st h; cases h
  | cons q rest ih =>
    obtain ⟨id', st'⟩ := q
    intro acc id st hmem huniq hdisj
    rw [newNotesLoop]
    by_cases hkey : uuidToStr id' = uuidToStr id
    · have hid : id' = id := uuidToStr_injective hkey
      subst hid
      have hst : st' = st := huniq (id', st') (List.mem_cons_self _ _) rfl
      subst hst
      by_cases hc : mcontains acc (uuidToStr id') = true
      · rw [if_pos hc]
        rw [mcontains_eq_isSome] at hc
        cases hm : mlookup acc (uuidToStr id') with
        | none => rw [hm] at hc; simp at hc
        | some w =>
          rcases hdisj with hd | hd
          · rw [hm] at hd; cases hd
          · exact newNotesLoop_pres rest acc _ _ hd
      · rw [if_neg hc]
        exact newNotesLoop_pres rest _ _ _ (mlookup_minsert_self acc _ _)
    · have hmem' : (id, st) ∈ rest := by
        rcases List.mem_cons.mp hmem with he | hr
        · exact absurd (congrArg (fun q => uuidToStr q.1) he).symm hkey
        · exact hr
      have huniq' : ∀ q ∈ rest, q.1 = id → q.2 = st :=
        fun q hq => huniq q (List.mem_cons_of_mem _ hq)
      by_cases hc : mcontains acc (uuidToStr id') = true
      · rw [if_pos hc]
        exact ih acc id st hmem' huniq' hdisj
      · rw [if_neg hc]
        refine ih _ id st hmem' huniq' ?_
        rw [mlookup_minsert_other acc _ _ _ hkey]
        exact hdisj

/-! #### The metadata-include loop -/
theorem includeLoop_pres (db : Db) (cm : List NoteMetadata) :
    ∀ (notes : List NoteMetadata) (accU : List (WireStr × WireStr))
      (accM : List NoteMetadata) (k v : WireStr),
      mlookup accU k = some v →
      mlookup (includeLoop db cm notes (accU, accM)).1 k = some v := by
  intro notes
  induction notes with
  | nil => intro accU accM k v h; exact h
  | cons note rest ih =>
    intro accU accM k v h
    rw [includeLoop]
    split
    · by_cases hc : mcontains accU (uuidToStr note.id) = true
      · rw [if_pos hc]
        exact ih _ _ k v h
      · rw [if_neg hc]
        cases hs : selectCrdt db note.id with
        | none => exact ih _ _ k v h
        | some row =>
          refine ih _ _ k v ?_
          have hnone : mlookup accU (uuidToStr note.id) = none := by
            rw [mcontains_eq_isSome] at hc
            cases hm : mlookup accU (uuidToStr note.id) with
            | none => rfl
            | some w => rw [hm] at hc; simp at hc
          have hne : uuidToStr note.id ≠ k := by
            intro he
            rw [he, h] at hnone
            cases hnone
          rw [mlookup_minsert_other accU _ _ k hne]
          exact h
    · exact ih _ _ k v h

theorem includeLoop_mem (db : Db) (cm : List NoteMetadata) :
    ∀ (notes : List NoteMetadata) (accU : List (WireStr × WireStr))
      (accM : List NoteMetadata) (p : WireStr × WireStr),
      p ∈ (includeLoop db cm notes (accU, accM)).1 →
      p ∈ accU ∨ ∃ id, p.1 = uuidToStr id := by
  intro notes
  induction notes with
  | nil => intro accU accM p h; exact Or.inl h
  | cons note rest ih =>
    intro accU accM p h
    rw [includeLoop] at h
    split at h
    · by_cases hc : mcontains accU (uuidToStr note.id) = true
      · rw [if_pos hc] at h
        exact ih _ _ p h
      · rw [if_neg hc] at h
        cases hs : selectCrdt db note.id with
        | none =>
          rw [hs] at h
          exact ih _ _ p h
        | some row =>
          rw [hs] at h
          rcases ih _ _ p h with hmem | hid
          · rcases List.mem_cons.mp hmem with rfl | hacc
            · exact Or.inr ⟨note.id, rfl⟩
            · exact Or.inl hacc
          · exact Or.inr hid
    · exact ih _ _ p h

/-! #### The unknown-notes selection -/
theorem mem_newNotesList_of {db : Db} {svs : List (WireStr × WireStr)}
    {r : CrdtRow} (hr : r ∈ db.crdt_states)
    (hnot : ∀ kv ∈ svs, parseUuid kv.1 ≠ some r.note_id) :
    (r.note_id, r.ydoc_state) ∈ newNotesList db svs := by
  simp only [newNotesList]
  have hmemids : r.note_id ∉ svs.filterMap (fun kv => parseUuid kv.1) := by
    intro hmem
    obtain ⟨kv, hkv, hp⟩ := List.mem_filterMap.mp hmem
    exact hnot kv hkv hp
  split
  · exact List.mem_map.mpr ⟨r, hr, rfl⟩
  · refine List.mem_map.mpr ⟨r, List.mem_filter.mpr ⟨hr, ?_⟩, rfl⟩
    simpa using hmemids

theorem mem_newNotesList {db : Db} {svs : List (WireStr × WireStr)}
    {q : Uuid × Bytes} (h : q ∈ newNotesList db svs) :
    ∃ r ∈ db.crdt_states, q = (r.note_id, r.ydoc_state) := by
  simp only [newNotesList] at h
  split at h
  · obtain ⟨r, hr, hq⟩ := List.mem_map.mp h
    exact ⟨r, hr, hq.symm⟩
  · obtain ⟨r, hr, hq⟩ := List.mem_map.mp h
    exact ⟨r, (List.mem_filter.mp hr).1, hq.symm⟩

theorem mergeStep_consistent {db : Db} (h : DbConsistent db)
    (now : Time) (id : Uuid) (upd : Bytes) :
    DbConsistent (mergeStep db now id upd) := by
  intro r hr
  rcases mem_upsertCrdt hr with rfl | hmem
  · exact ⟨_, canon_mergeDoc _ _, rfl, rfl⟩
  · exact h r hmem

theorem pushLoop_consistent (now : Time) (l : List (WireStr × WireStr))
    (db db' : Db) (hok : pushLoop now l db = .ok db') (h : DbConsistent db) :
    DbConsistent db' :=
  pushLoop_preserves DbConsistent
    (fun d n id upd hd => mergeStep_consistent hd n id upd) now l db db' hok h

theorem metaLoop_consistent (ms : List NoteMetadata) (db : Db)
    (h : DbConsistent db) : DbConsistent (metaLoop ms db) := by
  intro r hr
  rw [metaLoop_crdt ms db] at hr
  exact h r hr

theorem ws_update_consistent (db : Db) (now : Time) (k p : WireStr)
    (h : DbConsistent db) : DbConsistent (handle_ws_update db now k p) := by
  unfold handle_ws_update
  cases hp : parseUuid k with
  | none => exact h
  | some id =>
    cases hb : b64decode p with
    | none => exact h
    | some upd => exact mergeStep_consistent h now id upd

theorem ws_sync_updates_consistent (now : Time) :
    ∀ (l : List (WireStr × WireStr)) (db : Db), DbConsistent db →
      DbConsistent (handle_ws_sync_updates now l db) := by
  intro l
  induction l with
  | nil => intro db h; exact h
  | cons kv rest ih =>
    intro db h
    rw [handle_ws_sync_updates]
    refine ih _ ?_
    cases hp : parseUuid kv.1 with
    | none => exact h
    | some id =>
      cases hb : b64decode kv.2 with
      | none => exact h
      | some upd => exact mergeStep_consistent h now id upd

theorem save_note_consistent (db : Db) (now : Time) (freshId : Uuid)
    (note : NoteInput) (h : DbConsistent db) :
    DbConsistent (save_note db now freshId note).1 := by
  have hsave : DbConsistent (saveNoteUpsert db (save_note db now freshId note).2) := by
    intro r hr
    rw [saveNoteUpsert_crdt] at hr
    exact h r hr
  simp only [save_note]
  split
  · split
    · intro r hr
      rw [saveNoteUpsert_crdt] at hr
      exact h r hr
    · intro r hr
      rcases mem_insertCrdtIfAbsent hr with rfl | hmem
      · refine ⟨seedDoc (html_to_text note.content), ?_, rfl, rfl⟩
        unfold seedDoc
        split
        · exact canon_nil
        · exact List.pairwise_singleton _ _
      · rw [saveNoteUpsert_crdt] at hmem
        exact h r hmem
  · intro r hr
    rw [saveNoteUpsert_crdt] at hr
    exact h r hr

theorem sync_crdt_consistent {db : Db} {now : Time} {req : CrdtSyncRequest}
    {db' : Db} {resp : CrdtSyncResponse}
    (hok : sync_crdt db now req = .ok (db', resp)) (h : DbConsistent db) :
    DbConsistent db' := by
  obtain ⟨db1, hpush, hdb', _, _, _⟩ := sync_crdt_ok_inv hok
  rw [hdb']
  exact metaLoop_consistent _ _ (pushLoop_consistent now _ db db1 hpush h)

/-! ## Claim theorems -/
/-- C4: merging is idempotent — running the merge procedure twice with the
same update leaves the same stored `ydoc_state` bytes as running it once. -/
theorem crdt_merge_idempotent (db : Db) (n1 n2 : Time) (id : Uuid) (upd : Bytes) :
    (selectCrdt (mergeStep (mergeStep db n1 id upd) n2 id upd) id).map
      (fun r => r.ydoc_state) =
    (selectCrdt (mergeStep db n1 id upd) id).map (fun r => r.ydoc_state) := by
  rw [mergeStep_select_self, mergeStep_select_self]
  simp only [Option.map_some']
  have hm : mDoc (mergeStep db n1 id upd) id upd = mDoc db id upd := by
    unfold mDoc
    rw [mergeStep_select_self]
    show mergeDoc (some (encode_state_as_update_v1 (mDoc db id upd))) upd =
      mergeDoc ((selectCrdt db id).map (fun r => r.ydoc_state)) upd
    exact mergeDoc_idem _ upd
  rw [hm]

/-- C5: every write to `crdt_states` — the HTTP sync merge, the websocket
`Update` arm, the websocket `SyncRequest` push loop, and the legacy-content
seeding of `save_note` — leaves each stored row's `ydoc_state` and
`state_vector` a consistent pair, encoded from the same post-merge
document. -/
theorem crdt_pair_consistency :
    (∀ db now req db' resp, DbConsistent db →
        sync_crdt db now req = .ok (db', resp) → DbConsistent db') ∧
    (∀ db now k p, DbConsistent db →
        DbConsistent (handle_ws_update db now k p)) ∧
    (∀ db now l, DbConsistent db →
        DbConsistent (handle_ws_sync_updates now l db)) ∧
    (∀ db now freshId note, DbConsistent db →
        DbConsistent (save_note db now freshId note).1) :=
  ⟨fun _ _ _ _ _ h hok => sync_crdt_consistent hok h,
   fun db now k p h => ws_update_consistent db now k p h,
   fun _ now l h => ws_sync_updates_consistent now l _ h,
   fun db now freshId note h => save_note_consistent db now freshId note h⟩

theorem crdt_pair_consistency_witness :
    DbConsistent dbEmpty ∧
    sync_crdt dbEmpty 0 ⟨[], [], []⟩ = .ok (dbEmpty, ⟨[], [], 0⟩) ∧
    DbConsistent (handle_ws_update dbEmpty 0 [1] [64]) ∧
    DbConsistent (handle_ws_sync_updates 0 [] dbEmpty) ∧
    DbConsistent (save_note dbEmpty 0 1 ⟨some 1, "t", "", none, none, none, none⟩).1 := by
  have hc : DbConsistent dbEmpty := by intro r hr; cases hr
  refine ⟨hc, by rfl, ?_, ?_, ?_⟩
  · exact crdt_pair_consistency.2.1 dbEmpty 0 [1] [64] hc
  · exact crdt_pair_consistency.2.2.1 dbEmpty 0 [] hc
  · exact crdt_pair_consistency.2.2.2 dbEmpty 0 1 ⟨some 1, "t", "", none, none, none, none⟩ hc

/-- C9 (amended): `POST /auth` returns 401 exactly when the username is
empty; the password is never examined, and any nonempty username yields a
token. -/
theorem login_semantics (secret : String) (req : LoginRequest) :
    (req.username = "" → login secret req = .error unauthorized) ∧
    (req.username ≠ "" → login secret req = .ok (encode_token secret req.username)) := by
  constructor
  · intro h
    unfold login
    rw [if_pos ((String.isEmpty_iff req.username).mpr h)]
  · intro h
    unfold login
    rw [if_neg (fun hc => h ((String.isEmpty_iff req.username).mp hc))]

/-- C9 counterexample: empty password with a nonempty username returns a
token, not 401, refuting "401 exactly when the supplied credentials are
empty (empty username or empty password)". -/
theorem login_semantics_counterexample :
    login "s" ⟨"u", ""⟩ = .ok "s:u" ∧ ("" : String).isEmpty = true ∧
    login "s" ⟨"u", ""⟩ ≠ .error unauthorized := by decide

theorem login_semantics_witness :
    login "s" ⟨"", "pw"⟩ = .error unauthorized ∧
    login "s" ⟨"alice", "pw"⟩ = .ok (encode_token "s" "alice") :=
  ⟨(login_semantics "s" ⟨"", "pw"⟩).1 rfl,
   (login_semantics "s" ⟨"alice", "pw"⟩).2 (by decide)⟩

/-- C6 (amended): `GET /folders/:id` on a soft-deleted folder returns 404,
but `GET /notes/:id` returns the stored note row whether or not it is
soft-deleted; it returns 404 only when the row is absent. -/
theorem get_by_id_soft_delete_semantics :
    (∀ db idStr id f, parseUuid idStr = some id → selectFolder db id = some f →
        f.is_deleted = true → get_folder db idStr = .error notFound) ∧
    (∀ db idStr id r, parseUuid idStr = some id → selectNote db id = some r →
        get_note db idStr = .ok r) ∧
    (∀ db idStr id, parseUuid idStr = some id → selectNote db id = none →
        get_note db idStr = .error notFound) := by
  refine ⟨?_, ?_, ?_⟩
  · intro db idStr id f hp hf hdel
    unfold get_folder
    rw [hp]
    show (match selectFolder db id with
      | some folder =>
        if folder.is_deleted then Except.error notFound else Except.ok folder
      | none => (Except.error notFound : Except Status FolderRow)) =
      Except.error notFound
    rw [hf]
    show (if f.is_deleted then Except.error notFound else Except.ok f) =
      Except.error notFound
    rw [hdel]
    rfl
  · intro db idStr id r hp hr
    unfold get_note
    rw [hp]
    show (match selectNote db id with
      | some note => Except.ok note
      | none => (Except.error notFound : Except Status NoteRow)) = Except.ok r
    rw [hr]
  · intro db idStr id hp hr
    unfold get_note
    rw [hp]
    show (match selectNote db id with
      | some note => Except.ok note
      | none => (Except.error notFound : Except Status NoteRow)) =
      Except.error notFound
    rw [hr]

/-- C6 counterexample: a soft-deleted note is returned with 200, not 404,
refuting "GET /notes/:id on a soft-deleted note returns 404". -/
theorem get_by_id_soft_delete_counterexample :
    c6row.is_deleted = true ∧ get_note c6db (uuidToStr 1) = .ok c6row ∧
    get_note c6db (uuidToStr 1) ≠ .error notFound := by decide

theorem get_by_id_soft_delete_witness :
    get_folder c6db (uuidToStr 2) = .error notFound ∧
    get_note c6db (uuidToStr 1) = .ok c6row ∧
    get_note c6db (uuidToStr 3) = .error notFound :=
  ⟨get_by_id_soft_delete_semantics.1 c6db (uuidToStr 2) 2
      ⟨2, "F", none, 0, 0, true⟩ (by decide) (by decide) rfl,
   get_by_id_soft_delete_semantics.2.1 c6db (uuidToStr 1) 1 c6row
      (by decide) (by decide),
   get_by_id_soft_delete_semantics.2.2 c6db (uuidToStr 3) 3
      (by decide) (by decide)⟩

/-- C2 (amended): through the HTTP sync metadata path
(`upsert_metadata_if_newer`), last-writer-wins holds: for two writes with
`mtime` a < b in either order the stored row is the b-writer's payload, a
write whose `mtime` does not strictly exceed the stored one changes
nothing, and a first-time insert always succeeds. The streaming
`NoteMetadata` path, however, upserts unconditionally, so there the last
arrival wins regardless of `mtime`. -/
theorem metadata_lww_semantics :
    (∀ (db : Db) (a b : NoteMetadata),
        (db.notes.map (fun x => x.id)).Nodup →
        a.id = b.id → a.updated_at < b.updated_at →
        selectNote db b.id = none →
        selectNote (upsert_metadata_if_newer
          (upsert_metadata_if_newer db a) b) b.id = some (metaRow b) ∧
        selectNote (upsert_metadata_if_newer
          (upsert_metadata_if_newer db b) a) b.id = some (metaRow b)) ∧
    (∀ (db : Db) (m : NoteMetadata) (r : NoteRow),
        (db.notes.map (fun x => x.id)).Nodup →
        selectNote db m.id = some r → m.updated_at ≤ r.updated_at →
        upsert_metadata_if_newer db m = db) ∧
    (∀ (db : Db) (m : NoteMetadata), selectNote db m.id = none →
        selectNote (upsert_metadata_if_newer db m) m.id = some (metaRow m)) ∧
    (∀ (db : Db) (m : NoteMetadata),
        selectNote (handle_note_metadata db m) m.id = some (metaRow m)) := by
  refine ⟨?_, upsert_meta_stale, upsert_meta_insert, ws_meta_select⟩
  intro db a b hnodup hid hlt hnone
  constructor
  · have h1 : selectNote (upsert_metadata_if_newer db a) a.id = some (metaRow a) :=
      upsert_meta_insert db a (hid ▸ hnone)
    have h2 := upsert_meta_newer (upsert_metadata_if_newer db a) b (metaRow a)
      (by rw [← hid]; exact h1) hlt
    exact h2
  · have h1 : selectNote (upsert_metadata_if_newer db b) b.id = some (metaRow b) :=
      upsert_meta_insert db b hnone
    have hn1 : ((upsert_metadata_if_newer db b).notes.map (fun x => x.id)).Nodup :=
      upsert_meta_ids_nodup b hnodup
    have h2 : upsert_metadata_if_newer (upsert_metadata_if_newer db b) a =
        upsert_metadata_if_newer db b :=
      upsert_meta_stale _ a (metaRow b) hn1 (by rw [hid]; exact h1)
        (le_of_lt hlt)
    rw [h2]
    exact h1

/-- C2 counterexample: through the streaming `NoteMetadata` path, applying
the `mtime`-2 write and then the `mtime`-1 write leaves the `mtime`-1
payload stored — the b-writer does not win, refuting the claim for "any
server metadata write path". -/
theorem metadata_lww_counterexample :
    c2a.updated_at < c2b.updated_at ∧ c2a.id = c2b.id ∧
    selectNote (handle_note_metadata (handle_note_metadata dbEmpty c2b) c2a)
      c2b.id = some (metaRow c2a) ∧
    metaRow c2a ≠ metaRow c2b ∧
    selectNote (handle_note_metadata (handle_note_metadata dbEmpty c2b) c2a)
      c2b.id ≠ some (metaRow c2b) := by decide

theorem metadata_lww_witness :
    ((dbEmpty.notes.map (fun x => x.id)).Nodup ∧
      c2a.id = c2b.id ∧ c2a.updated_at < c2b.updated_at ∧
      selectNote dbEmpty c2b.id = none) ∧
    selectNote (upsert_metadata_if_newer
      (upsert_metadata_if_newer dbEmpty c2a) c2b) c2b.id = some (metaRow c2b) ∧
    selectNote (upsert_metadata_if_newer
      (upsert_metadata_if_newer dbEmpty c2b) c2a) c2b.id = some (metaRow c2b) := by
  refine ⟨⟨by decide, by decide, by decide, by decide⟩, ?_⟩
  exact metadata_lww_semantics.1 dbEmpty c2a c2b (by decide) (by decide)
    (by decide) (by decide)

/-! ### C7: save_note -/
/-- The `notes` row stored by `save_note` for a supplied id. -/
theorem selectNote_save_note (db : Db) (now : Time) (freshId : Uuid)
    (note : NoteInput) (id : Uuid) (hid : note.id = some id) :
    selectNote (save_note db now freshId note).1 id =
      some ⟨id, note.title, note.content, note.folder_id, now,
        note.is_deleted.getD false, note.is_canvas.getD false⟩ := by
  have hrow : (save_note db now freshId note).2 =
      ⟨id, note.title, note.content, note.folder_id, now,
        note.is_deleted.getD false, note.is_canvas.getD false⟩ := by
    simp [save_note, hid]
  have hnotes := save_note_notes db now freshId note
  show List.find? (fun r => r.id == id) ((save_note db now freshId note).1).notes = _
  rw [hnotes, hrow]
  exact selectNote_saveNoteUpsert_self db
    ⟨id, note.title, note.content, note.folder_id, now,
      note.is_deleted.getD false, note.is_canvas.getD false⟩

/-- C7 (amended): for two `POST /notes` writes to the same id, the final
`GET /notes/:id` matches the payload of the last-arriving write, stamped
with the server clock of that write — the client-carried `updated_at`
fields are ignored entirely. -/
theorem save_note_last_arrival_wins (db : Db) (n1 n2 : Time)
    (f1 f2 : Uuid) (i1 i2 : NoteInput) (id : Uuid)
    (h1 : i1.id = some id) (h2 : i2.id = some id) :
    get_note ((save_note ((save_note db n1 f1 i1).1) n2 f2 i2).1)
        (uuidToStr id) =
      .ok ⟨id, i2.title, i2.content, i2.folder_id, n2,
        i2.is_deleted.getD false, i2.is_canvas.getD false⟩ := by
  unfold get_note
  rw [parseUuid_uuidToStr]
  have hsel := selectNote_save_note ((save_note db n1 f1 i1).1) n2 f2 i2 id h2
  show (match selectNote ((save_note ((save_note db n1 f1 i1).1) n2 f2 i2).1) id with
    | some note => Except.ok note
    | none => (Except.error notFound : Except Status NoteRow)) = _
  rw [hsel]

/-- C7 counterexample: the write carrying client mtime 11 arrives first and
the write carrying client mtime 10 arrives second; the final GET matches
the mtime-10 payload, refuting "matches the payload of the write carrying
t+1s ... in either arrival order". -/
theorem save_note_last_arrival_counterexample :
    c7inA.updated_at = some 11 ∧ c7inB.updated_at = some 10 ∧
    get_note ((save_note ((save_note dbEmpty 5 0 c7inA).1) 6 0 c7inB).1)
      (uuidToStr 1) = .ok ⟨1, "B", "", none, 6, false, false⟩ ∧
    ("B" : String) ≠ "A" ∧
    get_note ((save_note ((save_note dbEmpty 5 0 c7inA).1) 6 0 c7inB).1)
      (uuidToStr 1) ≠
      .ok ⟨1, c7inA.title, c7inA.content, c7inA.folder_id, 6, false, false⟩ := by
  refine ⟨rfl, rfl, ?_, by decide, ?_⟩ <;> decide

theorem save_note_last_arrival_witness :
    c7inA.id = some 1 ∧ c7inB.id = some 1 ∧
    get_note ((save_note ((save_note dbEmpty 5 0 c7inA).1) 6 0 c7inB).1)
      (uuidToStr 1) = .ok ⟨1, "B", "", none, 6, false, false⟩ :=
  ⟨rfl, rfl,
    save_note_last_arrival_wins dbEmpty 5 6 0 0 c7inA c7inB 1 rfl rfl⟩

/-! ### C3: undecodable pushed updates -/
theorem mergeDoc_some_encode {d : YDoc} (hcan : Canon d) {b : Bytes}
    (hb : decode_v1 b = none) :
    mergeDoc (some (encode_state_as_update_v1 d)) b = d := by
  unfold mergeDoc
  rw [hb]
  show (match decode_v1 (encode_state_as_update_v1 d) with
    | some u => apply_update [] u
    | none => ([] : YDoc)) = d
  rw [decode_v1_encode hcan]
  exact canonList_eq_self hcan

theorem pushEntry_roundtrip (db : Db) (now : Time) (u : Uuid) (b : Bytes) :
    pushEntry now db (uuidToStr u, b64encode b) = .ok (mergeStep db now u b) := by
  unfold pushEntry
  show (match parseUuid (uuidToStr u) with
    | none => Except.error badRequest
    | some id =>
      match b64decode (b64encode b) with
      | none => Except.error badRequest
      | some upd => Except.ok (mergeStep db now id upd)) =
    .ok (mergeStep db now u b)
  rw [parseUuid_uuidToStr]
  rfl

theorem pushLoop_single (db : Db) (now : Time) (u : Uuid) (b : Bytes) :
    pushLoop now [(uuidToStr u, b64encode b)] db = .ok (mergeStep db now u b) := by
  rw [pushLoop, pushEntry_roundtrip]
  rfl

/-- C3 (amended): a pushed update whose bytes are valid base64 but do not
decode as a CRDT update does not abort the request. The update is silently
ignored inside the merge: the stored row for that note is still upserted —
its `updated_at` is set to the server clock and its snapshot re-encoded
from the previously stored state (so the document content is preserved
when the stored snapshot was a valid encoding) — while other rows and the
`notes` table are untouched. Only invalid base64 or an invalid id aborts
with 400. -/
theorem sync_crdt_invalid_update_ignored (db : Db) (now : Time) (u : Uuid)
    (b : Bytes) (hb : decode_v1 b = none) :
    ∃ resp, sync_crdt db now ⟨[], [(uuidToStr u, b64encode b)], []⟩ =
        .ok (mergeStep db now u b, resp) ∧
      (mergeStep db now u b).notes = db.notes ∧
      selectCrdt (mergeStep db now u b) u =
        some ⟨u, encode_state_as_update_v1 (mDoc db u b),
          encode_state_vector_v1 (mDoc db u b), now⟩ ∧
      (∀ v, v ≠ u → selectCrdt (mergeStep db now u b) v = selectCrdt db v) ∧
      (∀ r d, selectCrdt db u = some r →
        r.ydoc_state = encode_state_as_update_v1 d → Canon d →
        mDoc db u b = d) := by
  obtain ⟨resp, hresp⟩ : ∃ resp,
      sync_crdt db now ⟨[], [(uuidToStr u, b64encode b)], []⟩ =
        .ok (mergeStep db now u b, resp) := by
    unfold sync_crdt
    rw [show (⟨[], [(uuidToStr u, b64encode b)], []⟩ : CrdtSyncRequest).updates =
      [(uuidToStr u, b64encode b)] from rfl]
    rw [pushLoop_single]
    exact ⟨_, rfl⟩
  refine ⟨resp, hresp, mergeStep_notes db now u b, mergeStep_select_self db now u b,
    fun v hv => mergeStep_select_other db now u b v hv, ?_⟩
  intro r d hr hd hcan
  unfold mDoc
  rw [hr]
  show mergeDoc (some r.ydoc_state) b = d
  rw [hd]
  exact mergeDoc_some_encode hcan hb

/-- C3 counterexample: pushing valid base64 that is not a CRDT update
returns OK (not 400) and the stored row for the note changes (`updated_at`
bumped by the upsert), refuting "aborts with BadRequest and the stored
document row is left unchanged". -/
theorem sync_crdt_invalid_update_counterexample :
    decode_v1 [99] = none ∧
    sync_crdt c3db 9 c3req =
      .ok (⟨[], [],
            [⟨1, encode_state_as_update_v1 [5], encode_state_vector_v1 [5], 9⟩]⟩,
           ⟨[(uuidToStr 1, b64encode (encode_state_as_update_v1 [5]))], [], 9⟩) ∧
    (⟨[], [],
      [⟨1, encode_state_as_update_v1 [5], encode_state_vector_v1 [5], 9⟩]⟩ : Db)
      ≠ c3db ∧
    sync_crdt c3db 9 c3req ≠ .error badRequest := by decide

theorem sync_crdt_invalid_update_witness :
    decode_v1 [99] = none ∧
    (∃ resp, sync_crdt c3db 9 ⟨[], [(uuidToStr 1, b64encode [99])], []⟩ =
        .ok (mergeStep c3db 9 1 [99], resp) ∧
      (mergeStep c3db 9 1 [99]).notes = c3db.notes ∧
      selectCrdt (mergeStep c3db 9 1 [99]) 1 =
        some ⟨1, encode_state_as_update_v1 (mDoc c3db 1 [99]),
          encode_state_vector_v1 (mDoc c3db 1 [99]), 9⟩ ∧
      (∀ v, v ≠ 1 → selectCrdt (mergeStep c3db 9 1 [99]) v = selectCrdt c3db v) ∧
      (∀ r d, selectCrdt c3db 1 = some r →
        r.ydoc_state = encode_state_as_update_v1 d → Canon d →
        mDoc c3db 1 [99] = d)) :=
  ⟨by decide, sync_crdt_invalid_update_ignored c3db 9 1 [99] (by decide)⟩

/-! ### C1: recursive folder delete -/
/-- C1 (amended): `DELETE /folders/:id` marks the folder and every folder
in its transitive subtree `is_deleted = true` with `updated_at` set to the
server clock, leaves folders outside the subtree unchanged — and does not
touch the `notes` table at all (no note is soft-deleted, no note `mtime`
bumped). -/
theorem delete_folder_recursive_soft_delete (db : Db) (now : Time)
    (fid : Uuid) (db' : Db)
    (h : delete_folder db now (uuidToStr fid) = .ok db') :
    db'.notes = db.notes ∧ db'.crdt_states = db.crdt_states ∧
    (∀ g ∈ db.folders, InSubtree db.folders fid g.id →
      ({ g with is_deleted := true, updated_at := now } : FolderRow) ∈ db'.folders) ∧
    (∀ g ∈ db.folders, ¬ InSubtree db.folders fid g.id → g ∈ db'.folders) := by
  obtain ⟨fid', hp, hz, hdb'⟩ := delete_folder_ok_inv h
  rw [parseUuid_uuidToStr] at hp
  cases hp
  subst hdb'
  refine ⟨rfl, rfl, ?_, ?_⟩
  · intro g hg hsub
    have hroot := root_present_of_filter_ne hz
    have hmem : g.id ∈ descendants db.folders fid :=
      descendants_complete hroot hsub
    exact List.mem_map.mpr ⟨g, hg, by rw [if_pos hmem]⟩
  · intro g hg hnsub
    have hnm : g.id ∉ descendants db.folders fid :=
      fun hmem => hnsub (descendants_sound hmem)
    exact List.mem_map.mpr ⟨g, hg, by rw [if_neg hnm]⟩

/-- C1 counterexample: note 7 lives in folder 2 inside the deleted subtree
(folder 1 → folder 2), yet after `DELETE /folders/1` its row is unchanged
with `is_deleted = false` and its `mtime` not bumped — refuting "every note
whose folder_id lies in that subtree is also marked is_deleted=true with
its mtime bumped". -/
theorem delete_folder_counterexample :
    delete_folder c1db 5 (uuidToStr 1) = .ok c1dbAfter ∧
    c1noteH.folder_id = some 2 ∧
    selectNote c1dbAfter 7 = some c1noteH ∧
    c1noteH.is_deleted = false ∧ c1noteH.updated_at = 0 ∧
    ¬ (∀ n ∈ c1dbAfter.notes, n.folder_id = some 2 → n.is_deleted = true) := by
  decide

theorem delete_folder_witness :
    delete_folder c1db 5 (uuidToStr 1) = .ok c1dbAfter ∧
    (c1dbAfter.notes = c1db.notes ∧ c1dbAfter.crdt_states = c1db.crdt_states ∧
      (∀ g ∈ c1db.folders, InSubtree c1db.folders 1 g.id →
        ({ g with is_deleted := true, updated_at := 5 } : FolderRow) ∈
          c1dbAfter.folders) ∧
      (∀ g ∈ c1db.folders, ¬ InSubtree c1db.folders 1 g.id →
        g ∈ c1dbAfter.folders)) :=
  ⟨by decide, delete_folder_recursive_soft_delete c1db 5 1 c1dbAfter (by decide)⟩

/-! ### C8: full snapshots for notes the client did not advertise -/
/-- C8: in the `POST /sync/crdt` response, every note with a server
document row whose id is not advertised in the request's `state_vectors`
map receives its full stored snapshot (base64 of `ydoc_state`) under its
canonical id key. -/
theorem sync_crdt_unknown_notes_full_snapshot
    (db : Db) (now : Time) (req : CrdtSyncRequest) (db' : Db)
    (resp : CrdtSyncResponse)
    (hnodup : (db.crdt_states.map (fun r => r.note_id)).Nodup)
    (h : sync_crdt db now req = .ok (db', resp))
    (r : CrdtRow) (hr : r ∈ db'.crdt_states)
    (hnot : ∀ kv ∈ req.state_vectors, parseUuid kv.1 ≠ some r.note_id) :
    mlookup resp.updates (uuidToStr r.note_id) = some (b64encode r.ydoc_state) := by
  obtain ⟨db1, hpush, hdb', hupd, _, _⟩ := sync_crdt_ok_inv h
  have hcrdt : db'.crdt_states = db1.crdt_states := by
    rw [hdb']; exact metaLoop_crdt _ _
  have hn' : (db'.crdt_states.map (fun x => x.note_id)).Nodup := by
    rw [hcrdt]; exact pushLoop_ids_nodup now _ db db1 hpush hnodup
  rw [hupd]
  apply includeLoop_pres
  apply newNotesLoop_binds _ _ r.note_id r.ydoc_state
    (mem_newNotesList_of hr hnot)
  · intro q hq hq1
    obtain ⟨rq, hrq, rfl⟩ := mem_newNotesList hq
    have hqr : rq = r := keyed_unique (fun x => x.note_id) hn' hrq hr hq1
    rw [hqr]
  · cases hm : mlookup (diffLoop db' req.state_vectors [])
        (uuidToStr r.note_id) with
    | none => exact Or.inl rfl
    | some v =>
      exfalso
      obtain ⟨p, hpmem, hp1, _⟩ := mlookup_mem hm
      rcases diffLoop_mem _ _ p hpmem with hnil | ⟨kv, hkv, hpk, _⟩
      · exact absurd hnil (List.not_mem_nil p)
      · have hparse : parseUuid kv.1 = some r.note_id := by
          rw [← hpk, hp1, parseUuid_uuidToStr]
        exact absurd hparse (hnot kv hkv)

theorem sync_crdt_unknown_notes_witness :
    (c8db.crdt_states.map (fun r => r.note_id)).Nodup ∧
    sync_crdt c8db 9 ⟨[], [], []⟩ = .ok (c8db, c8resp) ∧
    c8row ∈ c8db.crdt_states ∧
    mlookup c8resp.updates (uuidToStr c8row.note_id) =
      some (b64encode c8row.ydoc_state) :=
  ⟨by decide, by decide, by decide,
   sync_crdt_unknown_notes_full_snapshot c8db 9 ⟨[], [], []⟩ c8db c8resp
     (by decide) (by decide) c8row (by decide)
     (fun kv hkv => absurd hkv (List.not_mem_nil kv))⟩

/-! ### C10: asymmetric request validation -/
/-- C10 (amended): `POST /sync/crdt` validates its two maps asymmetrically.
A malformed entry in `updates` (bad id or bad base64) fails the whole
request with 400, and a well-formed `updates` map never causes a rejection;
a malformed entry in `state_vectors` is skipped silently, and a key that is
not a valid UUID never gains a response entry — but, as the counterexample
shows, the note behind a skipped entry can still receive a full-snapshot
response entry through the unknown-notes/metadata phases, so "no
corresponding response entry" does not hold in general. -/
theorem sync_crdt_validation_asymmetry :
    (∀ (db : Db) (now : Time) (req : CrdtSyncRequest) (kv : WireStr × WireStr),
        kv ∈ req.updates → (parseUuid kv.1 = none ∨ b64decode kv.2 = none) →
        sync_crdt db now req = .error badRequest) ∧
    (∀ (db : Db) (now : Time) (req : CrdtSyncRequest),
        (∀ kv ∈ req.updates, (parseUuid kv.1).isSome ∧ (b64decode kv.2).isSome) →
        ∃ db' resp, sync_crdt db now req = .ok (db', resp)) ∧
    (∀ (db : Db) (now : Time) (req : CrdtSyncRequest) (db' : Db)
        (resp : CrdtSyncResponse) (k : WireStr),
        sync_crdt db now req = .ok (db', resp) → parseUuid k = none →
        mlookup resp.updates k = none) := by
  refine ⟨fun db now req kv hmem hbad => sync_crdt_badRequest hmem hbad, ?_, ?_⟩
  · intro db now req hwf
    obtain ⟨db1, hp⟩ := pushLoop_ok_of_wf now req.updates db hwf
    unfold sync_crdt
    rw [hp]
    exact ⟨_, _, rfl⟩
  · intro db now req db' resp k hok hk
    cases hm : mlookup resp.updates k with
    | none => rfl
    | some v =>
      exfalso
      obtain ⟨db1, hpush, hdb', hupd, _, _⟩ := sync_crdt_ok_inv hok
      rw [hupd] at hm
      obtain ⟨p, hpmem, hp1, _⟩ := mlookup_mem hm
      rcases includeLoop_mem _ _ _ _ _ p hpmem with hmem2 | ⟨id, hpid⟩
      · rcases newNotesLoop_mem _ _ p hmem2 with hmem1 | ⟨id, hpid⟩
        · rcases diffLoop_mem _ _ p hmem1 with hnil | ⟨kv, hkv, hpk, hps⟩
          · exact absurd hnil (List.not_mem_nil p)
          · have hkk : kv.1 = k := by rw [← hpk, hp1]
            rw [hkk, hk] at hps
            cases hps
        · have : parseUuid k = some id := by
            rw [← hp1, hpid, parseUuid_uuidToStr]
          rw [hk] at this
          cases this
      · have : parseUuid k = some id := by
          rw [← hp1, hpid, parseUuid_uuidToStr]
        rw [hk] at this
        cases this

/-- C10 counterexample: a `state_vectors` entry with invalid base64 is
skipped without error, yet the response carries a full-snapshot entry under
exactly that key (added by the metadata-include phase), refuting "no
corresponding response entry". -/
theorem sync_crdt_validation_counterexample :
    b64decode [9] = none ∧
    sync_crdt c10db 9 c10req =
      .ok (c10db, ⟨[(uuidToStr 1, b64encode (encode_state_as_update_v1 [5]))],
        [toMeta c10note], 9⟩) ∧
    mlookup [(uuidToStr 1, b64encode (encode_state_as_update_v1 [5]))]
      (uuidToStr 1) = some (b64encode (encode_state_as_update_v1 [5])) := by decide

theorem sync_crdt_validation_witness :
    sync_crdt dbEmpty 0 ⟨[], [([99], [64])], []⟩ = .error badRequest ∧
    (∃ db' resp, sync_crdt dbEmpty 0 ⟨[], [], []⟩ = .ok (db', resp)) ∧
    mlookup (⟨[], [], 0⟩ : CrdtSyncResponse).updates [33] = none :=
  ⟨sync_crdt_validation_asymmetry.1 dbEmpty 0 ⟨[], [([99], [64])], []⟩
      ([99], [64]) (by decide) (Or.inl (by decide)),
   sync_crdt_validation_asymmetry.2.1 dbEmpty 0 ⟨[], [], []⟩
      (fun kv hkv => absurd hkv (List.not_mem_nil kv)),
   sync_crdt_validation_asymmetry.2.2 dbEmpty 0 ⟨[], [], []⟩ dbEmpty
      ⟨[], [], 0⟩ [33] (by decide) (by decide)⟩

end Sanity

